import Mathlib

/-!
# Verification of the query normalizer and result filter/ranker of `src/app.py`

This file gives a shallow embedding of the two pieces of original logic in the
`/chat` handler of `src/app.py`:

* the Query Normalizer (lines 227-248): extracting a key term from a
  "what/who/where/when/how is/are my/the/your X" question, and
* the Result Filter & Ranker (lines 296-371): cleaning retrieved hits,
  suppressing near-duplicates of the utterance, classifying, sorting and
  truncating.

Modelling conventions:

* Python strings are `List Char`.  `str.lower`, `str.strip`, `str.split`,
  `str.split('\n')`, `str.startswith`, `in` (substring) and `str.replace`
  are modelled for the ASCII fragment the handler manipulates
  (`pyToLower`, `pyStrip`, `pyWords`, `splitOnNl`, `List.isPrefixOf`,
  `containsSub`, `stripQB`).
* `re.search` with the five question regexes is modelled by a leftmost scan
  (`searchPat`) of a committed literal matcher (`matchAt`).  Commitment is
  faithful here: the alternations `is|are|was|were` and `my|the|your` are
  mutually exclusive on any fixed text, and the final greedy `\w+` capture,
  having no continuation, is the maximal word-character run (`takeWordRun`).
* A hit is an open record with optional fields (`RawHit`).  Numeric scores
  are rationals; a score value of a non-numeric type is `PyScore.strv`.
  Python raises `TypeError` from the sort key `-x['score']` on such a value,
  which the ranker models with `Except.error`.
-/

/-- ASCII model of Python `str.lower`, characterwise. -/
def pyToLower (c : Char) : Char :=
  if c = 'A' then 'a' else if c = 'B' then 'b' else if c = 'C' then 'c'
  else if c = 'D' then 'd' else if c = 'E' then 'e' else if c = 'F' then 'f'
  else if c = 'G' then 'g' else if c = 'H' then 'h' else if c = 'I' then 'i'
  else if c = 'J' then 'j' else if c = 'K' then 'k' else if c = 'L' then 'l'
  else if c = 'M' then 'm' else if c = 'N' then 'n' else if c = 'O' then 'o'
  else if c = 'P' then 'p' else if c = 'Q' then 'q' else if c = 'R' then 'r'
  else if c = 'S' then 's' else if c = 'T' then 't' else if c = 'U' then 'u'
  else if c = 'V' then 'v' else if c = 'W' then 'w' else if c = 'X' then 'x'
  else if c = 'Y' then 'y' else if c = 'Z' then 'z' else c

/-- `str.lower` on a whole string. -/
def pyLower (s : List Char) : List Char := s.map pyToLower

/-- The characters Python `str.strip()` and `str.split()` treat as whitespace
(ASCII fragment). -/
def isSpaceChar (c : Char) : Bool :=
  c == ' ' || c == '\t' || c == '\n' || c == '\r' || c == '\x0b' || c == '\x0c'

/-- Python `str.strip()`: drop whitespace from both ends. -/
def pyStrip (s : List Char) : List Char :=
  ((s.dropWhile isSpaceChar).reverse.dropWhile isSpaceChar).reverse

/-- `s.split('\n')`: split at every newline; chunks may be empty and the
result is never empty. -/
def splitOnNl : List Char → List (List Char)
  | [] => [[]]
  | c :: cs =>
    match splitOnNl cs with
    | [] => [[]]
    | l :: ls => if c = '\n' then [] :: l :: ls else (c :: l) :: ls

/-- `'\n'.join(lines)`. -/
def joinNl : List (List Char) → List Char
  | [] => []
  | [l] => l
  | l :: l2 :: ls => l ++ '\n' :: joinNl (l2 :: ls)

/-- Chunks of a string between whitespace characters (chunks may be empty). -/
def spaceChunks : List Char → List (List Char)
  | [] => [[]]
  | c :: cs =>
    match spaceChunks cs with
    | [] => [[]]
    | l :: ls => if isSpaceChar c then [] :: l :: ls else (c :: l) :: ls

/-- Python `str.split()` with no argument: maximal runs of non-whitespace. -/
def pyWords (s : List Char) : List (List Char) :=
  (spaceChunks s).filter (fun w => !w.isEmpty)

/-- `set(s.split())`. -/
def wordSet (s : List Char) : Finset (List Char) := (pyWords s).toFinset

/-- Python substring test `needle in hay`. -/
def containsSub (needle : List Char) : List Char → Bool
  | [] => needle.isEmpty
  | c :: cs => List.isPrefixOf needle (c :: cs) || containsSub needle cs

/-! ## Query Normalizer (src/app.py lines 227-248) -/

/-- Word characters of the regexes' `\w` (ASCII fragment). -/
def isWordChar (c : Char) : Bool := c.isAlphanum || c == '_'

/-- The greedy `\w+` capture with no continuation: the maximal run of word
characters at the current position. -/
def takeWordRun : List Char → List Char
  | [] => []
  | c :: cs => if isWordChar c then c :: takeWordRun cs else []

/-- Match a literal string at the head of the text, returning the rest. -/
def matchLit : List Char → List Char → Option (List Char)
  | [], s => some s
  | _ :: _, [] => none
  | a :: as, c :: cs => if a == c then matchLit as cs else none

/-- Ordered alternation of literal strings (mutually exclusive for the
alternations used here, so committing to the first hit is faithful). -/
def matchAlts : List (List Char) → List Char → Option (List Char)
  | [], _ => none
  | a :: rest, s =>
    match matchLit a s with
    | some r => some r
    | none => matchAlts rest s

/-- One question template `<wh> (cop1|cop2|...) (my|the|your) (\w+)`. -/
structure QPattern where
  wh : List Char
  copulas : List (List Char)

/-- The determiner alternation `(my|the|your)` shared by all templates. -/
def determiners : List (List Char) :=
  [String.toList "my", String.toList "the", String.toList "your"]

/-- Attempt a template match anchored at the start of `s`; on success return
the text captured by group 3 (the noun). -/
def matchAt (p : QPattern) (s : List Char) : Option (List Char) :=
  match matchLit (p.wh ++ [' ']) s with
  | none => none
  | some s1 =>
    match matchAlts p.copulas s1 with
    | none => none
    | some s2 =>
      match matchLit [' '] s2 with
      | none => none
      | some s3 =>
        match matchAlts determiners s3 with
        | none => none
        | some s4 =>
          match matchLit [' '] s4 with
          | none => none
          | some s5 =>
            if (takeWordRun s5).isEmpty then none else some (takeWordRun s5)

/-- `re.search`: try the template at every position, leftmost first. -/
def searchPat (p : QPattern) : List Char → Option (List Char)
  | [] => matchAt p []
  | c :: cs =>
    match matchAt p (c :: cs) with
    | some g => some g
    | none => searchPat p cs

/-- The copula alternation `(is|are)`. -/
def copIsAre : List (List Char) := [String.toList "is", String.toList "are"]

/-- The copula alternation `(is|are|was|were)`. -/
def copIsAreWasWere : List (List Char) :=
  [String.toList "is", String.toList "are", String.toList "was", String.toList "were"]

/-- The fixed ordered template list `question_patterns` of src/app.py
lines 232-238. -/
def question_patterns : List QPattern :=
  [⟨String.toList "what", copIsAre⟩,
   ⟨String.toList "who", copIsAre⟩,
   ⟨String.toList "where", copIsAre⟩,
   ⟨String.toList "when", copIsAreWasWere⟩,
   ⟨String.toList "how", copIsAreWasWere⟩]

/-- The `for pattern in question_patterns` loop, src/app.py lines 240-248:
the first template whose leftmost match captures a noun longer than two
characters wins; a template matching with a shorter noun does not break the
loop. -/
def extractLoop (msgLower : List Char) : List QPattern → Option (List Char)
  | [] => none
  | p :: ps =>
    match searchPat p msgLower with
    | some g => if 2 < g.length then some g else extractLoop msgLower ps
    | none => extractLoop msgLower ps

/-- `message_lower = message.lower().strip()` (src/app.py line 228; the same
value is recomputed from `original_message` at line 296). -/
def msgLowerOf (message : List Char) : List Char := pyStrip (pyLower message)

/-- The Query Normalizer: `search_query` as computed by src/app.py
lines 227-248. -/
def normalizeQuery (message : List Char) : List Char :=
  match extractLoop (msgLowerOf message) question_patterns with
  | some g => g
  | none => message

/-! ## Result Filter & Ranker (src/app.py lines 296-371) -/

/-- A score value found in a hit record: a number, or a value of some other
type (modelled by the string case) on which Python's unary minus raises. -/
inductive PyScore where
  | num (q : ℚ)
  | strv (s : List Char)
deriving DecidableEq

/-- A raw search hit: an open record with optional fields, as consumed by
the filter (src/app.py lines 302-306). -/
structure RawHit where
  snippet : Option (List Char)
  text : Option (List Char)
  preview : Option (List Char)
  score : Option PyScore
  title : Option (List Char)
deriving DecidableEq

/-- A surviving hit as appended to `filtered_hits` (src/app.py
lines 354-360). -/
structure ClassifiedHit where
  snippet : List Char
  score : PyScore
  title : List Char
  is_factual : Bool
  has_proper_noun : Bool
deriving DecidableEq

/-- `hit.get('snippet', '') or hit.get('text', '') or hit.get('preview', '')`
(src/app.py line 304): first non-empty field wins. -/
def pickText (h : RawHit) : List Char :=
  let s := h.snippet.getD []
  if !s.isEmpty then s
  else
    let t := h.text.getD []
    if !t.isEmpty then t
    else h.preview.getD []

/-- `hit.get('score', 0)` (src/app.py line 305). -/
def getScore (h : RawHit) : PyScore := h.score.getD (PyScore.num 0)

/-- The reserved metadata markers of src/app.py line 317. -/
def metaPrefixes : List (List Char) :=
  [String.toList "title:", String.toList "labels:", String.toList "tags:",
   String.toList "extractous_metadata:"]

/-- `any(line.lower().startswith(p) for p in [...])` (src/app.py line 317).
Note: the line is lower-cased but NOT left-trimmed. -/
def isMetaLine (line : List Char) : Bool :=
  metaPrefixes.any (fun p => List.isPrefixOf p (pyLower line))

/-- The `cleaned_lines` list of src/app.py lines 314-318. -/
def keptLines (s : List Char) : List (List Char) :=
  (splitOnNl s).filter (fun line => !(isMetaLine line))

/-- `'\n'.join(cleaned_lines).strip()` (src/app.py line 319). -/
def cleanSnippet (s : List Char) : List Char := pyStrip (joinNl (keptLines s))

/-- The `snippet` local after the cleaning block (src/app.py lines 311-319):
cleaning is applied only when the picked text is non-empty. -/
def snippetOf (h : RawHit) : List Char :=
  let s := pickText h
  if s.isEmpty then s else cleanSnippet s

/-- `snippet_lower = snippet.lower().strip()` (src/app.py line 325). -/
def snippetLowerOf (h : RawHit) : List Char := pyStrip (pyLower (snippetOf h))

/-- `snippet_first_line = snippet_lower.split('\n')[0].strip()`
(src/app.py line 329). -/
def firstLineOf (h : RawHit) : List Char :=
  pyStrip ((splitOnNl (snippetLowerOf h)).headD [])

/-- `.replace('?', '').replace('!', '')` (src/app.py line 332): removes every
question and exclamation mark. -/
def stripQB (s : List Char) : List Char :=
  (s.filter (fun c => !(c == '?'))).filter (fun c => !(c == '!'))

/-- The copula tokens of src/app.py line 349, space-padded. -/
def factualWords : List (List Char) :=
  [String.toList " is ", String.toList " was ", String.toList " are ",
   String.toList " were ", String.toList " has ", String.toList " have "]

/-- `is_factual` (src/app.py line 349). -/
def isFactualOf (h : RawHit) : Bool :=
  factualWords.any (fun w => containsSub w (snippetLowerOf h))

/-- `word[0].isupper()` for a non-empty token. -/
def headIsUpper : List Char → Bool
  | [] => false
  | c :: _ => c.isUpper

/-- `has_proper_noun` (src/app.py line 350): some token of the cleaned
snippet of length greater than one starts with an uppercase letter. -/
def hasProperNounOf (h : RawHit) : Bool :=
  (pyWords (snippetOf h)).any (fun w => decide (1 < w.length) && headIsUpper w)

/-- The word-subset test of src/app.py line 343, exactly as coded:
`len(snippet_words) <= len(message_words) + 1 and
snippet_words.issubset(message_words)`. -/
def subsetRule (sw mw : Finset (List Char)) : Prop :=
  sw.card ≤ mw.card + 1 ∧ sw ⊆ mw

instance (sw mw : Finset (List Char)) : Decidable (subsetRule sw mw) :=
  inferInstanceAs (Decidable (_ ∧ _))

/-- Modelled from the spec: claim C10's proposed equivalent of the
word-subset test, the plain subset condition with no cardinality bound. -/
def subsetOnlyRule (sw mw : Finset (List Char)) : Prop := sw ⊆ mw

/-- The per-hit body of the filtering loop, src/app.py lines 302-360:
`none` means `continue` (the hit is dropped), `some` is the record appended
to `filtered_hits`. -/
def processHit (msgLower : List Char) (msgWords : Finset (List Char))
    (h : RawHit) : Option ClassifiedHit :=
  if (snippetOf h).isEmpty then none
  else if firstLineOf h = msgLower ∨ pyStrip (stripQB (firstLineOf h)) = msgLower then none
  else if containsSub msgLower (snippetLowerOf h) = true ∧
      ((snippetLowerOf h).length : ℚ) < (msgLower.length : ℚ) * (3 / 2) then none
  else if subsetRule (wordSet (snippetLowerOf h)) msgWords then none
  else some ⟨snippetOf h, getScore h, h.title.getD (String.toList "Untitled"),
    isFactualOf h, hasProperNounOf h⟩

/-- The `filtered_hits` list (src/app.py lines 301-360), in input order. -/
def filteredHits (message : List Char) (hits : List RawHit) : List ClassifiedHit :=
  hits.filterMap (processHit (msgLowerOf message) (wordSet (msgLowerOf message)))

/-- The sort key `(not x['is_factual'], -x['score'])` (src/app.py line 365),
`Except.error` when the score is not a number (Python raises `TypeError`). -/
def hitKey (h : ClassifiedHit) : Except Unit (Bool × ℚ) :=
  match h.score with
  | PyScore.num q => Except.ok (!h.is_factual, -q)
  | PyScore.strv _ => Except.error ()

/-- Ascending lexicographic order on sort keys (`False < True` on booleans,
as in Python tuple comparison). -/
def keyLe (a b : Bool × ℚ) : Bool :=
  (a.1 == b.1 && decide (a.2 ≤ b.2)) || (!a.1 && b.1)

/-- Stable insertion of a keyed element: placed before the first element it
is less-or-equal to, hence after every earlier element with an equal key. -/
def insSorted (x : (Bool × ℚ) × ClassifiedHit) :
    List ((Bool × ℚ) × ClassifiedHit) → List ((Bool × ℚ) × ClassifiedHit)
  | [] => [x]
  | y :: l => if keyLe x.1 y.1 then x :: y :: l else y :: insSorted x l

/-- Stable sort of keyed elements, modelling Python's stable
`list.sort(key=...)`. -/
def sortKeyed : List ((Bool × ℚ) × ClassifiedHit) → List ((Bool × ℚ) × ClassifiedHit)
  | [] => []
  | x :: l => insSorted x (sortKeyed l)

/-- Compute every element's sort key before sorting, as CPython's
`list.sort(key=...)` does; the first non-numeric score raises. -/
def decorate : List ClassifiedHit → Except Unit (List ((Bool × ℚ) × ClassifiedHit))
  | [] => Except.ok []
  | h :: t =>
    match hitKey h with
    | Except.error e => Except.error e
    | Except.ok k =>
      match decorate t with
      | Except.error e => Except.error e
      | Except.ok rest => Except.ok ((k, h) :: rest)

/-- The Result Filter & Ranker, src/app.py lines 296-371: filter, stably
sort by `(not is_factual, -score)`, truncate to the limit 3. -/
def filterRank (message : List Char) (hits : List RawHit) :
    Except Unit (List ClassifiedHit) :=
  match decorate (filteredHits message hits) with
  | Except.error e => Except.error e
  | Except.ok dl => Except.ok (((sortKeyed dl).map Prod.snd).take 3)

/-- The numeric value of a score, `0` for the non-numeric case (only used to
STATE ordering properties; the ranker itself errors on non-numeric scores). -/
def scoreQ (h : ClassifiedHit) : ℚ :=
  match h.score with
  | PyScore.num q => q
  | PyScore.strv _ => 0

/-- `true` when the template's leftmost match on `m` (if any) captures a noun
of at most two characters, i.e. the template does not produce a usable key
term on `m`. -/
def shortMatch (m : List Char) (p : QPattern) : Bool :=
  match searchPat p m with
  | some g => decide (g.length ≤ 2)
  | none => true

/-- The wh-word/copula combinations actually accepted by
`question_patterns`: `was`/`were` only for `when` and `how`. -/
def validCombos : List (List Char × List Char) :=
  [(String.toList "what", String.toList "is"), (String.toList "what", String.toList "are"),
   (String.toList "who", String.toList "is"), (String.toList "who", String.toList "are"),
   (String.toList "where", String.toList "is"), (String.toList "where", String.toList "are"),
   (String.toList "when", String.toList "is"), (String.toList "when", String.toList "are"),
   (String.toList "when", String.toList "was"), (String.toList "when", String.toList "were"),
   (String.toList "how", String.toList "is"), (String.toList "how", String.toList "are"),
   (String.toList "how", String.toList "was"), (String.toList "how", String.toList "were")]

/-- A hit's score field is absent or a number (Python would not raise on it). -/
def isNumScore : Option PyScore → Bool
  | some (PyScore.strv _) => false
  | _ => true

/-- The lower-case ASCII letters, the possible outputs of `pyToLower` on the
characters it changes. -/
def lcChars : List Char :=
  ['a','b','c','d','e','f','g','h','i','j','k','l','m',
   'n','o','p','q','r','s','t','u','v','w','x','y','z']

/-- The upper-case ASCII letters, the characters `pyToLower` changes. -/
def ucChars : List Char :=
  ['A','B','C','D','E','F','G','H','I','J','K','L','M',
   'N','O','P','Q','R','S','T','U','V','W','X','Y','Z']

/-! ## Helper lemmas: characters and the literal matcher -/

theorem isSpaceChar_cases {c : Char} (h : isSpaceChar c = true) :
    c = ' ' ∨ c = '\t' ∨ c = '\n' ∨ c = '\r' ∨ c = '\x0b' ∨ c = '\x0c' := by
  simp only [isSpaceChar, Bool.or_eq_true, beq_iff_eq] at h
  tauto

theorem word_not_space {c : Char} (h : isWordChar c = true) : isSpaceChar c = false := by
  cases hs : isSpaceChar c
  · rfl
  · rcases isSpaceChar_cases hs with rfl | rfl | rfl | rfl | rfl | rfl <;>
      exact absurd h (by decide)

theorem pyToLower_eq_self_of_not_uc {c : Char} (h : c ∉ ucChars) : pyToLower c = c := by
  have n1 : ¬ c = 'A' := fun he => h (by rw [he]; decide)
  have n2 : ¬ c = 'B' := fun he => h (by rw [he]; decide)
  have n3 : ¬ c = 'C' := fun he => h (by rw [he]; decide)
  have n4 : ¬ c = 'D' := fun he => h (by rw [he]; decide)
  have n5 : ¬ c = 'E' := fun he => h (by rw [he]; decide)
  have n6 : ¬ c = 'F' := fun he => h (by rw [he]; decide)
  have n7 : ¬ c = 'G' := fun he => h (by rw [he]; decide)
  have n8 : ¬ c = 'H' := fun he => h (by rw [he]; decide)
  have n9 : ¬ c = 'I' := fun he => h (by rw [he]; decide)
  have n10 : ¬ c = 'J' := fun he => h (by rw [he]; decide)
  have n11 : ¬ c = 'K' := fun he => h (by rw [he]; decide)
  have n12 : ¬ c = 'L' := fun he => h (by rw [he]; decide)
  have n13 : ¬ c = 'M' := fun he => h (by rw [he]; decide)
  have n14 : ¬ c = 'N' := fun he => h (by rw [he]; decide)
  have n15 : ¬ c = 'O' := fun he => h (by rw [he]; decide)
  have n16 : ¬ c = 'P' := fun he => h (by rw [he]; decide)
  have n17 : ¬ c = 'Q' := fun he => h (by rw [he]; decide)
  have n18 : ¬ c = 'R' := fun he => h (by rw [he]; decide)
  have n19 : ¬ c = 'S' := fun he => h (by rw [he]; decide)
  have n20 : ¬ c = 'T' := fun he => h (by rw [he]; decide)
  have n21 : ¬ c = 'U' := fun he => h (by rw [he]; decide)
  have n22 : ¬ c = 'V' := fun he => h (by rw [he]; decide)
  have n23 : ¬ c = 'W' := fun he => h (by rw [he]; decide)
  have n24 : ¬ c = 'X' := fun he => h (by rw [he]; decide)
  have n25 : ¬ c = 'Y' := fun he => h (by rw [he]; decide)
  have n26 : ¬ c = 'Z' := fun he => h (by rw [he]; decide)
  unfold pyToLower
  rw [if_neg n1, if_neg n2, if_neg n3, if_neg n4, if_neg n5, if_neg n6,
    if_neg n7, if_neg n8, if_neg n9, if_neg n10, if_neg n11, if_neg n12,
    if_neg n13, if_neg n14, if_neg n15, if_neg n16, if_neg n17, if_neg n18,
    if_neg n19, if_neg n20, if_neg n21, if_neg n22, if_neg n23, if_neg n24,
    if_neg n25, if_neg n26]

theorem pyToLower_cases (c : Char) : pyToLower c = c ∨ pyToLower c ∈ lcChars := by
  by_cases hc : c ∈ ucChars
  · exact Or.inr ((show ∀ d ∈ ucChars, pyToLower d ∈ lcChars by decide) _ hc)
  · exact Or.inl (pyToLower_eq_self_of_not_uc hc)

theorem pyToLower_idem (c : Char) : pyToLower (pyToLower c) = pyToLower c := by
  rcases pyToLower_cases c with h | h
  · rw [h]; exact h
  · exact (show ∀ d ∈ lcChars, pyToLower d = d by decide) _ h

theorem isSpaceChar_pyToLower (c : Char) : isSpaceChar (pyToLower c) = isSpaceChar c := by
  by_cases hc : c ∈ ucChars
  · exact (show ∀ d ∈ ucChars, isSpaceChar (pyToLower d) = isSpaceChar d by decide) _ hc
  · rw [pyToLower_eq_self_of_not_uc hc]

theorem map_eq_self_of_fix {f : Char → Char} :
    ∀ {l : List Char}, (∀ c ∈ l, f c = c) → l.map f = l
  | [], _ => rfl
  | c :: cs, h => by
    simp only [List.map_cons, h c (List.mem_cons_self c cs),
      map_eq_self_of_fix (fun d hd => h d (List.mem_cons_of_mem c hd))]

theorem takeWordRun_word : ∀ {s : List Char}, ∀ c ∈ takeWordRun s, isWordChar c = true := by
  intro s
  induction s with
  | nil => intro c hc; simp [takeWordRun] at hc
  | cons a t ih =>
    intro c hc
    by_cases ha : isWordChar a = true
    · simp only [takeWordRun, ha, if_true, List.mem_cons] at hc
      rcases hc with rfl | hc
      · exact ha
      · exact ih c hc
    · simp only [takeWordRun, ha, if_false] at hc
      exact absurd hc (List.not_mem_nil c)

theorem takeWordRun_all : ∀ {s : List Char}, (∀ c ∈ s, isWordChar c = true) →
    takeWordRun s = s
  | [], _ => rfl
  | c :: cs, h => by
    simp only [takeWordRun, h c (List.mem_cons_self c cs), if_true,
      takeWordRun_all (fun d hd => h d (List.mem_cons_of_mem c hd))]

theorem matchLit_eq_some : ∀ {a s r : List Char}, matchLit a s = some r ↔ s = a ++ r := by
  intro a
  induction a with
  | nil =>
    intro s r
    simp [matchLit, eq_comm]
  | cons x xs ih =>
    intro s r
    cases s with
    | nil => simp [matchLit]
    | cons c cs =>
      by_cases hx : x = c
      · subst hx
        simp only [matchLit, beq_self_eq_true, if_true, List.cons_append,
          List.cons.injEq, true_and]
        exact ih.trans (by simp)
      · have : (x == c) = false := by simp [hx]
        simp [matchLit, this, List.cons_append, Ne.symm hx, hx]

theorem matchLit_self {a r : List Char} : matchLit a (a ++ r) = some r :=
  matchLit_eq_some.mpr rfl

theorem matchLit_none_of_not_pref {a s : List Char}
    (h : List.isPrefixOf a s = false) : matchLit a s = none := by
  cases hm : matchLit a s with
  | none => rfl
  | some r =>
    exfalso
    have hs : s = a ++ r := matchLit_eq_some.mp hm
    have : List.isPrefixOf a s = true := by
      rw [List.isPrefixOf_iff_prefix, hs]
      exact ⟨r, rfl⟩
    rw [h] at this
    exact absurd this (by decide)

theorem matchAt_none_of_stage1 {p : QPattern} {s : List Char}
    (h : matchLit (p.wh ++ [' ']) s = none) : matchAt p s = none := by
  unfold matchAt
  rw [h]

theorem matchAt_none_of_words {p : QPattern} {s : List Char}
    (h : ∀ c ∈ s, isWordChar c = true) : matchAt p s = none := by
  apply matchAt_none_of_stage1
  cases hm : matchLit (p.wh ++ [' ']) s with
  | none => rfl
  | some r =>
    exfalso
    have hs : s = (p.wh ++ [' ']) ++ r := matchLit_eq_some.mp hm
    have hsp : (' ' : Char) ∈ s := by
      rw [hs]
      exact List.mem_append_left _ (List.mem_append_right _ (List.mem_singleton_self _))
    have := h _ hsp
    exact absurd this (by decide)

theorem searchPat_none_of_words {p : QPattern} :
    ∀ {s : List Char}, (∀ c ∈ s, isWordChar c = true) → searchPat p s = none := by
  intro s
  induction s with
  | nil => intro _; exact matchAt_none_of_words (by intro c hc; simp at hc)
  | cons c cs ih =>
    intro h
    have hm : matchAt p (c :: cs) = none := matchAt_none_of_words h
    simp only [searchPat, hm]
    exact ih (fun d hd => h d (List.mem_cons_of_mem c hd))

theorem searchPat_cons {p : QPattern} {c : Char} {cs : List Char} :
    searchPat p (c :: cs) =
      match matchAt p (c :: cs) with
      | some g => some g
      | none => searchPat p cs := rfl

theorem isPrefixOf_words_false {nd : List Char} {c0 : Char}
    (hc : isWordChar c0 = false) :
    ∀ {N : List Char}, (∀ c ∈ N, isWordChar c = true) →
      List.isPrefixOf (nd ++ [c0]) N = false := by
  intro N hN
  cases hp : List.isPrefixOf (nd ++ [c0]) N with
  | false => rfl
  | true =>
    exfalso
    have hpre : nd ++ [c0] <+: N := (List.isPrefixOf_iff_prefix).mp hp
    have : c0 ∈ N := hpre.subset (List.mem_append_right _ (List.mem_singleton_self _))
    rw [hN c0 this] at hc
    exact absurd hc (by decide)

theorem containsSub_words_false {nd : List Char} {c0 : Char}
    (hc : isWordChar c0 = false) :
    ∀ {N : List Char}, (∀ c ∈ N, isWordChar c = true) →
      containsSub (nd ++ [c0]) N = false := by
  intro N
  induction N with
  | nil =>
    intro _
    simp [containsSub]
  | cons a t ih =>
    intro hN
    simp only [containsSub, Bool.or_eq_false_iff]
    constructor
    · exact isPrefixOf_words_false hc hN
    · exact ih (fun d hd => hN d (List.mem_cons_of_mem a hd))

theorem isPrefixOf_append_words {c0 : Char} (hc : isWordChar c0 = false)
    {N : List Char} (hN : ∀ c ∈ N, isWordChar c = true) :
    ∀ (nd x : List Char),
      List.isPrefixOf (nd ++ [c0]) (x ++ N) = List.isPrefixOf (nd ++ [c0]) x := by
  intro nd
  induction nd with
  | nil =>
    intro x
    cases x with
    | nil =>
      have h0 := @isPrefixOf_words_false [] c0 hc N hN
      simp only [List.nil_append] at h0 ⊢
      rw [h0]
      rfl
    | cons a xs =>
      simp [List.isPrefixOf]
  | cons b nds ih =>
    intro x
    cases x with
    | nil =>
      have h0 := @isPrefixOf_words_false (b :: nds) c0 hc N hN
      simp only [List.nil_append] at h0 ⊢
      rw [h0]
      rfl
    | cons a xs =>
      simp only [List.cons_append, List.isPrefixOf, List.append_eq, ih xs]

theorem containsSub_append_words {c0 : Char} (hc : isWordChar c0 = false)
    {N : List Char} (hN : ∀ c ∈ N, isWordChar c = true) :
    ∀ (nd pre : List Char),
      containsSub (nd ++ [c0]) (pre ++ N) = containsSub (nd ++ [c0]) pre := by
  intro nd pre
  induction pre with
  | nil =>
    simp only [List.nil_append]
    rw [containsSub_words_false hc hN]
    simp [containsSub]
  | cons a ps ih =>
    have e1 : (a :: ps) ++ N = a :: (ps ++ N) := rfl
    rw [e1]
    show (List.isPrefixOf (nd ++ [c0]) (a :: (ps ++ N)) ||
        containsSub (nd ++ [c0]) (ps ++ N)) =
      (List.isPrefixOf (nd ++ [c0]) (a :: ps) || containsSub (nd ++ [c0]) ps)
    rw [ih]
    have h2 := isPrefixOf_append_words hc hN nd (a :: ps)
    rw [show (a :: ps) ++ N = a :: (ps ++ N) from rfl] at h2
    rw [h2]

theorem searchPat_none_of_not_contains {p : QPattern} :
    ∀ {s : List Char}, containsSub (p.wh ++ [' ']) s = false → searchPat p s = none := by
  intro s
  induction s with
  | nil =>
    intro _
    have : matchLit (p.wh ++ [' ']) [] = none := by
      cases hw : p.wh with
      | nil => rfl
      | cons a t => rfl
    exact matchAt_none_of_stage1 this
  | cons c cs ih =>
    intro h
    simp only [containsSub, Bool.or_eq_false_iff] at h
    have hm : matchAt p (c :: cs) = none :=
      matchAt_none_of_stage1 (matchLit_none_of_not_pref h.1)
    simp only [searchPat, hm]
    exact ih h.2

/-! ## Helper lemmas: words, stripping, lines -/

theorem spaceChunks_ne_nil : ∀ (s : List Char), spaceChunks s ≠ []
  | [] => by simp [spaceChunks]
  | c :: cs => by
    simp only [spaceChunks]
    cases h : spaceChunks cs with
    | nil => simp
    | cons l ls =>
      by_cases hc : isSpaceChar c = true <;> simp [hc]

theorem spaceChunks_append_space {c : Char} (hc : isSpaceChar c = true) :
    ∀ (a b : List Char), spaceChunks (a ++ c :: b) = spaceChunks a ++ spaceChunks b := by
  intro a
  induction a with
  | nil =>
    intro b
    obtain ⟨l, ls, hb⟩ : ∃ l ls, spaceChunks b = l :: ls := by
      cases h : spaceChunks b with
      | nil => exact absurd h (spaceChunks_ne_nil b)
      | cons l ls => exact ⟨l, ls, rfl⟩
    show (match spaceChunks b with
      | [] => [[]]
      | l :: ls => if isSpaceChar c then [] :: l :: ls else (c :: l) :: ls) =
      [[]] ++ spaceChunks b
    rw [hb]
    simp [hc]
  | cons x xs ih =>
    intro b
    obtain ⟨w, ws, hx⟩ : ∃ w ws, spaceChunks xs = w :: ws := by
      cases h : spaceChunks xs with
      | nil => exact absurd h (spaceChunks_ne_nil xs)
      | cons w ws => exact ⟨w, ws, rfl⟩
    have hxb : spaceChunks (xs ++ c :: b) = w :: (ws ++ spaceChunks b) := by
      rw [ih b, hx, List.cons_append]
    have hR : spaceChunks (x :: xs) = if isSpaceChar x then [] :: w :: ws
        else (x :: w) :: ws := by
      show (match spaceChunks xs with
        | [] => [[]]
        | l :: ls => if isSpaceChar x then [] :: l :: ls else (x :: l) :: ls) = _
      rw [hx]
    show (match spaceChunks (xs ++ c :: b) with
      | [] => [[]]
      | l :: ls => if isSpaceChar x then [] :: l :: ls else (x :: l) :: ls) =
      spaceChunks (x :: xs) ++ spaceChunks b
    rw [hxb, hR]
    by_cases hcx : isSpaceChar x = true
    · simp [hcx, List.cons_append]
    · simp [hcx, List.cons_append]

theorem pyWords_append_space {c : Char} (hc : isSpaceChar c = true) (a b : List Char) :
    pyWords (a ++ c :: b) = pyWords a ++ pyWords b := by
  simp only [pyWords, spaceChunks_append_space hc, List.filter_append]

theorem pyWords_nil : pyWords [] = [] := rfl

theorem pyWords_space_cons {c : Char} (hc : isSpaceChar c = true) (b : List Char) :
    pyWords (c :: b) = pyWords b := by
  have := pyWords_append_space hc [] b
  simpa [pyWords_nil] using this

theorem pyWords_all_space : ∀ {t : List Char}, (∀ c ∈ t, isSpaceChar c = true) →
    pyWords t = []
  | [], _ => rfl
  | c :: t, h => by
    rw [pyWords_space_cons (h c (List.mem_cons_self c t))]
    exact pyWords_all_space (fun d hd => h d (List.mem_cons_of_mem c hd))

theorem pyWords_append_spaces {t : List Char} (h : ∀ c ∈ t, isSpaceChar c = true) :
    ∀ (u : List Char), pyWords (u ++ t) = pyWords u := by
  cases t with
  | nil => intro u; simp
  | cons c t' =>
    intro u
    rw [pyWords_append_space (h c (List.mem_cons_self c t')) u t']
    rw [pyWords_all_space (fun d hd => h d (List.mem_cons_of_mem c hd))]
    simp

theorem pyWords_dropWhile_space (s : List Char) :
    pyWords (s.dropWhile isSpaceChar) = pyWords s := by
  induction s with
  | nil => rfl
  | cons c cs ih =>
    by_cases hc : isSpaceChar c = true
    · rw [List.dropWhile_cons, if_pos hc, ih, pyWords_space_cons hc]
    · rw [List.dropWhile_cons, if_neg hc]

theorem pyWords_pyStrip (s : List Char) : pyWords (pyStrip s) = pyWords s := by
  unfold pyStrip
  set u := s.dropWhile isSpaceChar with hu
  have h1 : pyWords u = pyWords s := pyWords_dropWhile_space s
  have hdecomp : u = (u.reverse.dropWhile isSpaceChar).reverse ++
      (u.reverse.takeWhile isSpaceChar).reverse := by
    have : u.reverse = u.reverse.takeWhile isSpaceChar ++ u.reverse.dropWhile isSpaceChar :=
      (List.takeWhile_append_dropWhile isSpaceChar u.reverse).symm
    calc u = u.reverse.reverse := (List.reverse_reverse u).symm
    _ = (u.reverse.takeWhile isSpaceChar ++ u.reverse.dropWhile isSpaceChar).reverse := by
        rw [← this]
    _ = (u.reverse.dropWhile isSpaceChar).reverse ++
        (u.reverse.takeWhile isSpaceChar).reverse := by
        rw [List.reverse_append]
  have hsp : ∀ c ∈ (u.reverse.takeWhile isSpaceChar).reverse, isSpaceChar c = true := by
    intro c hcmem
    rw [List.mem_reverse] at hcmem
    exact List.mem_takeWhile_imp hcmem
  calc pyWords (u.reverse.dropWhile isSpaceChar).reverse
      = pyWords ((u.reverse.dropWhile isSpaceChar).reverse ++
        (u.reverse.takeWhile isSpaceChar).reverse) := (pyWords_append_spaces hsp _).symm
    _ = pyWords u := by rw [← hdecomp]
    _ = pyWords s := h1

theorem dropWhile_map_space (f : Char → Char)
    (hf : ∀ c, isSpaceChar (f c) = isSpaceChar c) :
    ∀ (l : List Char), (l.map f).dropWhile isSpaceChar = (l.dropWhile isSpaceChar).map f := by
  intro l
  induction l with
  | nil => rfl
  | cons c cs ih =>
    simp only [List.map_cons, List.dropWhile_cons, hf c]
    by_cases hc : isSpaceChar c = true
    · rw [if_pos hc, if_pos hc, ih]
    · rw [if_neg hc, if_neg hc, List.map_cons]

theorem pyStrip_pyLower (s : List Char) : pyStrip (pyLower s) = pyLower (pyStrip s) := by
  unfold pyStrip pyLower
  rw [dropWhile_map_space pyToLower isSpaceChar_pyToLower s, ← List.map_reverse,
    dropWhile_map_space pyToLower isSpaceChar_pyToLower, ← List.map_reverse]

theorem pyStrip_eq_self {s : List Char} (hne : s ≠ [])
    (h1 : isSpaceChar (s.head hne) = false)
    (h2 : isSpaceChar (s.getLast hne) = false) : pyStrip s = s := by
  obtain ⟨a, t, rfl⟩ : ∃ a t, s = a :: t := by
    cases s with
    | nil => exact absurd rfl hne
    | cons a t => exact ⟨a, t, rfl⟩
  have hh : (a :: t).head hne = a := rfl
  rw [hh] at h1
  unfold pyStrip
  rw [List.dropWhile_cons, if_neg (by rw [h1]; exact Bool.false_ne_true)]
  have hrev : (a :: t).reverse = (a :: t).getLast hne :: ((a :: t).dropLast).reverse := by
    conv_lhs => rw [← List.dropLast_append_getLast hne]
    rw [List.reverse_append, List.reverse_singleton]
    rfl
  rw [hrev, List.dropWhile_cons, if_neg (by rw [h2]; exact Bool.false_ne_true)]
  rw [← hrev, List.reverse_reverse]

theorem splitOnNl_ne_nil : ∀ (s : List Char), splitOnNl s ≠ []
  | [] => by simp [splitOnNl]
  | c :: cs => by
    simp only [splitOnNl]
    cases h : splitOnNl cs with
    | nil => simp
    | cons l ls =>
      by_cases hc : c = '\n' <;> simp [hc]

theorem joinNl_splitOnNl : ∀ (s : List Char), joinNl (splitOnNl s) = s
  | [] => rfl
  | c :: cs => by
    obtain ⟨l, ls, h⟩ : ∃ l ls, splitOnNl cs = l :: ls := by
      cases h : splitOnNl cs with
      | nil => exact absurd h (splitOnNl_ne_nil cs)
      | cons l ls => exact ⟨l, ls, rfl⟩
    have ih : joinNl (splitOnNl cs) = cs := joinNl_splitOnNl cs
    rw [h] at ih
    show joinNl (match splitOnNl cs with
      | [] => [[]]
      | l :: ls => if c = '\n' then [] :: l :: ls else (c :: l) :: ls) = c :: cs
    rw [h]
    show joinNl (if c = '\n' then [] :: l :: ls else (c :: l) :: ls) = c :: cs
    by_cases hc : c = '\n'
    · rw [if_pos hc]
      show [] ++ '\n' :: joinNl (l :: ls) = c :: cs
      rw [List.nil_append, ih, hc]
    · rw [if_neg hc]
      cases ls with
      | nil =>
        show c :: l = c :: cs
        have : joinNl [l] = l := rfl
        rw [this] at ih
        rw [ih]
      | cons m ms =>
        show (c :: l) ++ '\n' :: joinNl (m :: ms) = c :: cs
        have : joinNl (l :: m :: ms) = l ++ '\n' :: joinNl (m :: ms) := rfl
        rw [this] at ih
        rw [List.cons_append, ih]

theorem mem_pyWords_joinNl {w : List Char} :
    ∀ {parts : List (List Char)},
      w ∈ pyWords (joinNl parts) ↔ ∃ l ∈ parts, w ∈ pyWords l := by
  intro parts
  induction parts with
  | nil => simp [joinNl, pyWords_nil]
  | cons l rest ih =>
    cases rest with
    | nil => simp [joinNl]
    | cons m ms =>
      have hj : joinNl (l :: m :: ms) = l ++ '\n' :: joinNl (m :: ms) := rfl
      rw [hj, pyWords_append_space (by decide) l (joinNl (m :: ms))]
      simp only [List.mem_append, ih, List.mem_cons]
      constructor
      · rintro (hw | ⟨x, hx, hwx⟩)
        · exact ⟨l, Or.inl rfl, hw⟩
        · exact ⟨x, Or.inr hx, hwx⟩
      · rintro ⟨x, hx | hx, hwx⟩
        · subst hx; exact Or.inl hwx
        · exact Or.inr ⟨x, hx, hwx⟩

theorem pyLower_joinNl : ∀ (parts : List (List Char)),
    pyLower (joinNl parts) = joinNl (parts.map pyLower)
  | [] => rfl
  | [l] => rfl
  | l :: m :: ms => by
    have ih := pyLower_joinNl (m :: ms)
    show pyLower (l ++ '\n' :: joinNl (m :: ms)) = joinNl ((l :: m :: ms).map pyLower)
    have h2 : joinNl ((l :: m :: ms).map pyLower) =
        pyLower l ++ '\n' :: joinNl ((m :: ms).map pyLower) := rfl
    rw [h2]
    unfold pyLower
    rw [List.map_append, List.map_cons]
    have hnl : pyToLower '\n' = '\n' := rfl
    rw [hnl]
    unfold pyLower at ih
    rw [ih]

/-! ## Helper lemmas: snippet words are utterance words -/

theorem mem_pyWords_msgLower {s line w : List Char} (hline : line ∈ splitOnNl s)
    (hw : w ∈ pyWords (pyLower line)) : w ∈ pyWords (msgLowerOf s) := by
  unfold msgLowerOf
  rw [pyWords_pyStrip]
  have hrw : pyLower s = joinNl ((splitOnNl s).map pyLower) := by
    have h0 := pyLower_joinNl (splitOnNl s)
    rw [joinNl_splitOnNl s] at h0
    exact h0
  rw [hrw]
  exact mem_pyWords_joinNl.mpr ⟨pyLower line, List.mem_map_of_mem _ hline, hw⟩

theorem wordSet_snippetLower_subset {h : RawHit} {message : List Char}
    (hp : pickText h = message) :
    wordSet (snippetLowerOf h) ⊆ wordSet (msgLowerOf message) := by
  intro w hw
  unfold wordSet at hw ⊢
  rw [List.mem_toFinset] at hw ⊢
  unfold snippetLowerOf at hw
  by_cases he : (pickText h).isEmpty = true
  · have hsn : snippetOf h = pickText h := by unfold snippetOf; rw [if_pos he]
    have hnil : pickText h = [] := by
      cases hpt : pickText h with
      | nil => rfl
      | cons a t => rw [hpt] at he; exact absurd he (by simp)
    rw [hsn, hnil] at hw
    have hz : pyWords (pyStrip (pyLower ([] : List Char))) = [] := rfl
    rw [hz] at hw
    exact absurd hw (List.not_mem_nil w)
  · have hsn : snippetOf h = cleanSnippet message := by
      unfold snippetOf
      rw [if_neg he, hp]
    rw [hsn] at hw
    unfold cleanSnippet at hw
    rw [pyWords_pyStrip, ← pyStrip_pyLower, pyWords_pyStrip, pyLower_joinNl] at hw
    obtain ⟨l', hl', hwl'⟩ := mem_pyWords_joinNl.mp hw
    rw [List.mem_map] at hl'
    obtain ⟨line, hline, rfl⟩ := hl'
    have hline2 : line ∈ splitOnNl message := by
      unfold keptLines at hline
      exact (List.mem_filter.mp hline).1
    exact mem_pyWords_msgLower hline2 hwl'

theorem filterMap_filter_beq {α β : Type} [DecidableEq α] (f : α → Option β) (a : α)
    (hf : f a = none) : ∀ (l : List α),
      (l.filter (fun x => !(x == a))).filterMap f = l.filterMap f
  | [] => rfl
  | x :: t => by
    by_cases hx : x = a
    · subst hx
      rw [List.filter_cons]
      simp only [beq_self_eq_true, Bool.not_true, if_false]
      rw [List.filterMap_cons, hf]
      exact filterMap_filter_beq f x hf t
    · rw [List.filter_cons]
      have hxa : (!(x == a)) = true := by simp [hx]
      rw [if_pos hxa, List.filterMap_cons, List.filterMap_cons]
      cases f x <;> simp [filterMap_filter_beq f a hf t]

/-! ## Claim theorems -/

/-- C1 (confirmed).  Self-exclusion: a hit whose resolved text is exactly the
utterance is always dropped by the filter (its word set is a subset of the
utterance's word set of no greater cardinality, so the word-subset rule fires
if no earlier rule already did), and hence the ranked output of any hit list
is unchanged when every such hit is removed. -/
theorem self_exclusion (message : List Char) (hits : List RawHit) (h : RawHit)
    (hp : pickText h = message) :
    processHit (msgLowerOf message) (wordSet (msgLowerOf message)) h = none ∧
    filterRank message hits =
      filterRank message (hits.filter (fun x => !(x == h))) := by
  have hnone : processHit (msgLowerOf message) (wordSet (msgLowerOf message)) h = none := by
    have hsub : wordSet (snippetLowerOf h) ⊆ wordSet (msgLowerOf message) :=
      wordSet_snippetLower_subset hp
    have hcard : (wordSet (snippetLowerOf h)).card ≤
        (wordSet (msgLowerOf message)).card + 1 :=
      le_trans (Finset.card_le_card hsub) (Nat.le_succ _)
    unfold processHit
    split_ifs with h1 h2 h3 h4
    · rfl
    · rfl
    · rfl
    · rfl
    · exact absurd ⟨hcard, hsub⟩ h4
  refine ⟨hnone, ?_⟩
  unfold filterRank
  have heq : filteredHits message (hits.filter (fun x => !(x == h))) =
      filteredHits message hits := by
    unfold filteredHits
    exact filterMap_filter_beq _ h hnone hits
  rw [heq]

/-- Witness for C1 at the utterance `"What is my name?"` echoed verbatim. -/
theorem self_exclusion_witness :
    processHit (msgLowerOf (String.toList "What is my name?"))
        (wordSet (msgLowerOf (String.toList "What is my name?")))
        ⟨none, some (String.toList "What is my name?"), none, none, none⟩ = none ∧
    filterRank (String.toList "What is my name?")
        [⟨none, some (String.toList "What is my name?"), none, none, none⟩] =
      filterRank (String.toList "What is my name?")
        ([⟨none, some (String.toList "What is my name?"), none, none, none⟩].filter
          (fun x => !(x == (⟨none, some (String.toList "What is my name?"),
            none, none, none⟩ : RawHit)))) :=
  self_exclusion _ _ _ (by rfl)

/-- C7 (confirmed).  Word-subset suppression: if the cleaned snippet's word
set has at most one more element than the utterance's word set and is a
subset of it, the hit is dropped (either by an earlier near-duplicate rule or
by the word-subset rule itself). -/
theorem subset_suppression (message : List Char) (h : RawHit)
    (hcard : (wordSet (snippetLowerOf h)).card ≤
      (wordSet (msgLowerOf message)).card + 1)
    (hsub : wordSet (snippetLowerOf h) ⊆ wordSet (msgLowerOf message)) :
    processHit (msgLowerOf message) (wordSet (msgLowerOf message)) h = none := by
  unfold processHit
  split_ifs with h1 h2 h3 h4
  · rfl
  · rfl
  · rfl
  · rfl
  · exact absurd ⟨hcard, hsub⟩ h4

/-- Witness for C7 at the claim's example: utterance `"What is my name"`,
hit text `"name is"`. -/
theorem subset_suppression_witness :
    (wordSet (snippetLowerOf ⟨none, some (String.toList "name is"), none, none, none⟩)).card ≤
      (wordSet (msgLowerOf (String.toList "What is my name"))).card + 1 ∧
    processHit (msgLowerOf (String.toList "What is my name"))
        (wordSet (msgLowerOf (String.toList "What is my name")))
        ⟨none, some (String.toList "name is"), none, none, none⟩ = none :=
  ⟨by decide, subset_suppression _ _ (by decide) (by decide)⟩

/-- C10 (confirmed).  The cardinality bound in the word-subset rule is
redundant: the test of src/app.py line 343 (`subsetRule`) is equivalent to
the plain subset condition, since a subset of a finite set never has more
elements than the containing set. -/
theorem subsetRule_equiv :
    ∀ sw mw : Finset (List Char), subsetRule sw mw ↔ subsetOnlyRule sw mw := by
  intro sw mw
  constructor
  · exact fun hx => hx.2
  · exact fun hx => ⟨le_trans (Finset.card_le_card hx) (Nat.le_succ _), hx⟩

/-- C6 counterexample: a metadata line with leading whitespace is NOT
dropped, because src/app.py line 317 applies `startswith` to the raw
lower-cased line without left-trimming.  The claim predicted the cleaning
result `"The sky is blue"`; the code keeps the `" title: x"` line. -/
theorem metadata_strip_cex :
    cleanSnippet (String.toList " title: x\nThe sky is blue") =
      String.toList "title: x\nThe sky is blue" ∧
    cleanSnippet (String.toList " title: x\nThe sky is blue") ≠
      String.toList "The sky is blue" :=
  ⟨by decide, by decide⟩

/-- C6 (corrected).  Cleaning drops exactly the lines whose lower-cased
content starts, without left-trimming, with a reserved marker: the claim's
example still cleans to `"The sky is blue"`, a line with leading whitespace
is not recognised as metadata, a line of `s` is kept iff it is not a
metadata line, and a hit whose cleaned snippet is empty is dropped. -/
theorem metadata_strip_amended :
    cleanSnippet (String.toList "title: My Note\nlabels: x\nThe sky is blue") =
      String.toList "The sky is blue" ∧
    isMetaLine (String.toList " title: x") = false ∧
    (∀ (s line : List Char), line ∈ splitOnNl s →
      (isMetaLine line = true → line ∉ keptLines s) ∧
      (isMetaLine line = false → line ∈ keptLines s)) ∧
    (∀ (msgLower : List Char) (msgWords : Finset (List Char)) (h : RawHit),
      (snippetOf h).isEmpty = true → processHit msgLower msgWords h = none) := by
  refine ⟨by decide, by decide, ?_, ?_⟩
  · intro s line hmem
    constructor
    · intro hm hk
      unfold keptLines at hk
      rw [List.mem_filter, hm] at hk
      simp at hk
    · intro hm
      unfold keptLines
      rw [List.mem_filter]
      exact ⟨hmem, by rw [hm]; rfl⟩
  · intro msgLower msgWords h he
    unfold processHit
    rw [if_pos he]

/-- Witness for C6's amended statement: the `"labels: x"` line of a two-line
text is dropped, and a hit that cleans to nothing is dropped. -/
theorem metadata_strip_amended_witness :
    String.toList "labels: x" ∉ keptLines (String.toList "labels: x\nfoo") ∧
    processHit [] ∅ ⟨some (String.toList "title: hi"), none, none, none, none⟩ = none :=
  ⟨(metadata_strip_amended.2.2.1 _ _ (by decide)).1 (by decide),
   metadata_strip_amended.2.2.2 [] ∅ _ (by decide)⟩

/-- C3 counterexample: utterance `"What is my name?"`, hit text
`"What is my name"`.  The claim says the Result Filter drops this hit; the
code strips `?`/`!` from the snippet's first line (not from the utterance),
so no rule fires and the hit is ranked. -/
theorem trailing_punct_cex :
    filterRank (String.toList "What is my name?")
        [⟨none, some (String.toList "What is my name"), none, none, none⟩] =
      Except.ok [⟨String.toList "What is my name", PyScore.num 0,
        String.toList "Untitled", true, true⟩] ∧
    filterRank (String.toList "What is my name?")
        [⟨none, some (String.toList "What is my name"), none, none, none⟩] ≠
      Except.ok [] := by
  have h1 : filterRank (String.toList "What is my name?")
      [⟨none, some (String.toList "What is my name"), none, none, none⟩] =
      Except.ok [⟨String.toList "What is my name", PyScore.num 0,
        String.toList "Untitled", true, true⟩] := by rfl
  refine ⟨h1, ?_⟩
  rw [h1]
  intro hc
  have h2 := Except.ok.inj hc
  simp at h2

/-- C4 counterexample: in `"what is my ox who is my doctor"` the
highest-priority matching template (`what is my ...`) captures the two-letter
noun `"ox"`, yet the normalizer does not return the original utterance: the
loop goes on to the `who` template and returns `"doctor"`. -/
theorem first_match_cex :
    normalizeQuery (String.toList "what is my ox who is my doctor") =
      String.toList "doctor" ∧
    String.toList "doctor" ≠ String.toList "what is my ox who is my doctor" :=
  ⟨by decide, by decide⟩

/-- C5 counterexample: the copulas `was`/`were` are only accepted after
`when`/`how`, so `"what was my name"` is not normalized to `"name"`; and the
captured noun comes from the lower-cased utterance, so `"what is my Abc"`
normalizes to `"abc"`, not `"Abc"`. -/
theorem copula_cex :
    normalizeQuery (String.toList "what was my name") =
      String.toList "what was my name" ∧
    normalizeQuery (String.toList "what was my name") ≠ String.toList "name" ∧
    normalizeQuery (String.toList "what is my Abc") = String.toList "abc" ∧
    normalizeQuery (String.toList "what is my Abc") ≠ String.toList "Abc" :=
  ⟨by decide, by decide, by decide, by decide⟩

/-- C8 counterexample: a surviving hit whose score field holds a non-numeric
value makes the ranker raise (`TypeError` from `-x['score']` in Python,
`Except.error` here), refuting "never raises for every input hit list". -/
theorem ranker_raises_cex :
    filterRank (String.toList "hello")
        [⟨some (String.toList "Paris is nice"), none, none,
          some (PyScore.strv (String.toList "high")), none⟩] = Except.error () := by
  rfl

/-! ## Helper lemmas: properties of extracted key terms -/

theorem takeWordRun_mem : ∀ {s : List Char}, ∀ c ∈ takeWordRun s, c ∈ s := by
  intro s
  induction s with
  | nil => intro c hc; exact absurd hc (by simp [takeWordRun])
  | cons a t ih =>
    intro c hc
    by_cases ha : isWordChar a = true
    · simp only [takeWordRun, ha, if_true, List.mem_cons] at hc
      rcases hc with rfl | hc
      · exact List.mem_cons_self _ _
      · exact List.mem_cons_of_mem a (ih c hc)
    · simp only [takeWordRun, ha, if_false] at hc
      exact absurd hc (List.not_mem_nil c)

theorem matchAlts_some_mem : ∀ {alts : List (List Char)} {s r : List Char},
    matchAlts alts s = some r → ∀ c ∈ r, c ∈ s := by
  intro alts
  induction alts with
  | nil => intro s r hm; exact absurd hm (by simp [matchAlts])
  | cons a rest ih =>
    intro s r hm
    unfold matchAlts at hm
    cases hl : matchLit a s with
    | some r0 =>
      rw [hl] at hm
      have hr : r0 = r := Option.some.inj hm
      have hs : s = a ++ r0 := matchLit_eq_some.mp hl
      intro c hc
      rw [hs]
      exact List.mem_append_right a (hr.symm ▸ hc)
    | none =>
      rw [hl] at hm
      exact ih hm

theorem matchAt_some_props {p : QPattern} {s g : List Char} (hm : matchAt p s = some g) :
    (∀ c ∈ g, isWordChar c = true) ∧ (∀ c ∈ g, c ∈ s) := by
  unfold matchAt at hm
  split at hm
  · exact absurd hm (by simp)
  · rename_i s1 h1
    split at hm
    · exact absurd hm (by simp)
    · rename_i s2 h2
      split at hm
      · exact absurd hm (by simp)
      · rename_i s3 h3
        split at hm
        · exact absurd hm (by simp)
        · rename_i s4 h4
          split at hm
          · exact absurd hm (by simp)
          · rename_i s5 h5
            by_cases hg : (takeWordRun s5).isEmpty = true
            · rw [if_pos hg] at hm
              exact absurd hm (by simp)
            · rw [if_neg hg] at hm
              have hgg : takeWordRun s5 = g := Option.some.inj hm
              constructor
              · intro c hc
                rw [← hgg] at hc
                exact takeWordRun_word c hc
              · intro c hc
                rw [← hgg] at hc
                have hc5 : c ∈ s5 := takeWordRun_mem c hc
                have hc4 : c ∈ s4 := by
                  rw [matchLit_eq_some.mp h5]
                  exact List.mem_append_right _ hc5
                have hc3 : c ∈ s3 := matchAlts_some_mem h4 c hc4
                have hc2 : c ∈ s2 := by
                  rw [matchLit_eq_some.mp h3]
                  exact List.mem_append_right _ hc3
                have hc1 : c ∈ s1 := matchAlts_some_mem h2 c hc2
                rw [matchLit_eq_some.mp h1]
                exact List.mem_append_right _ hc1

theorem searchPat_some_props {p : QPattern} : ∀ {s g : List Char},
    searchPat p s = some g →
      (∀ c ∈ g, isWordChar c = true) ∧ (∀ c ∈ g, c ∈ s) := by
  intro s
  induction s with
  | nil =>
    intro g hs
    have hs2 : matchAt p [] = some g := hs
    exact matchAt_some_props hs2
  | cons c cs ih =>
    intro g hs
    rw [searchPat_cons] at hs
    cases hm : matchAt p (c :: cs) with
    | some g0 =>
      rw [hm] at hs
      have hg : g0 = g := Option.some.inj hs
      rw [← hg]
      exact matchAt_some_props hm
    | none =>
      rw [hm] at hs
      have := ih hs
      exact ⟨this.1, fun d hd => List.mem_cons_of_mem c (this.2 d hd)⟩

theorem extractLoop_some {m g : List Char} : ∀ {ps : List QPattern},
    extractLoop m ps = some g → ∃ p ∈ ps, searchPat p m = some g := by
  intro ps
  induction ps with
  | nil => intro hx; exact absurd hx (by simp [extractLoop])
  | cons p rest ih =>
    intro hx
    unfold extractLoop at hx
    cases hs : searchPat p m with
    | some g0 =>
      rw [hs] at hx
      have hx2 : (if 2 < g0.length then some g0 else extractLoop m rest) = some g := hx
      by_cases hlen : 2 < g0.length
      · rw [if_pos hlen] at hx2
        have : g0 = g := Option.some.inj hx2
        exact ⟨p, List.mem_cons_self p rest, by rw [hs, this]⟩
      · rw [if_neg hlen] at hx2
        obtain ⟨q, hq, hsq⟩ := ih hx2
        exact ⟨q, List.mem_cons_of_mem p hq, hsq⟩
    | none =>
      rw [hs] at hx
      obtain ⟨q, hq, hsq⟩ := ih hx
      exact ⟨q, List.mem_cons_of_mem p hq, hsq⟩

theorem extractLoop_none_of_all {m : List Char} : ∀ {ps : List QPattern},
    (∀ p ∈ ps, searchPat p m = none) → extractLoop m ps = none := by
  intro ps
  induction ps with
  | nil => intro _; rfl
  | cons p rest ih =>
    intro hall
    unfold extractLoop
    rw [hall p (List.mem_cons_self p rest)]
    exact ih (fun q hq => hall q (List.mem_cons_of_mem p hq))

theorem mem_of_mem_dropWhile_space {c : Char} : ∀ {s : List Char},
    c ∈ s.dropWhile isSpaceChar → c ∈ s := by
  intro s
  induction s with
  | nil => intro hc; simp at hc
  | cons a t ih =>
    intro hc
    rw [List.dropWhile_cons] at hc
    by_cases ha : isSpaceChar a = true
    · rw [if_pos ha] at hc
      exact List.mem_cons_of_mem a (ih hc)
    · rw [if_neg ha] at hc
      exact hc

theorem mem_of_mem_pyStrip {c : Char} {s : List Char} (hc : c ∈ pyStrip s) : c ∈ s := by
  unfold pyStrip at hc
  rw [List.mem_reverse] at hc
  have h1 := mem_of_mem_dropWhile_space hc
  rw [List.mem_reverse] at h1
  exact mem_of_mem_dropWhile_space h1

/-- C9 (confirmed).  Idempotence of the Query Normalizer: its output is
either the unchanged utterance or an extracted key term; a key term is a
single run of lower-cased word characters, on which no question template can
match (each template requires a space), so normalizing it again returns it
unchanged. -/
theorem normalizeQuery_idem (message : List Char) :
    normalizeQuery (normalizeQuery message) = normalizeQuery message := by
  cases hx : extractLoop (msgLowerOf message) question_patterns with
  | none =>
    have h0 : normalizeQuery message = message := by
      unfold normalizeQuery
      rw [hx]
    rw [h0]
    exact h0
  | some g =>
    have h0 : normalizeQuery message = g := by
      unfold normalizeQuery
      rw [hx]
    rw [h0]
    obtain ⟨p, _, hs⟩ := extractLoop_some hx
    have hprops := searchPat_some_props hs
    have hword : ∀ c ∈ g, isWordChar c = true := hprops.1
    have hfixc : ∀ c ∈ g, pyToLower c = c := by
      intro c hc
      have hmem : c ∈ pyLower message := mem_of_mem_pyStrip (hprops.2 c hc)
      unfold pyLower at hmem
      obtain ⟨d, _, rfl⟩ := List.mem_map.mp hmem
      exact pyToLower_idem d
    have hlow : pyLower g = g := map_eq_self_of_fix hfixc
    have hstrip : pyStrip g = g := by
      cases hg : g with
      | nil => rfl
      | cons a t =>
        have hne : a :: t ≠ [] := by simp
        apply pyStrip_eq_self hne
        · have ha : a ∈ g := by rw [hg]; exact List.mem_cons_self a t
          exact word_not_space (hword a ha)
        · have hl : (a :: t).getLast hne ∈ g := by
            rw [hg]
            exact List.getLast_mem hne
          exact word_not_space (hword _ hl)
    have hmg : msgLowerOf g = g := by
      unfold msgLowerOf
      rw [hlow, hstrip]
    have hall : ∀ q ∈ question_patterns, searchPat q (msgLowerOf g) = none := by
      intro q _
      rw [hmg]
      exact searchPat_none_of_words hword
    unfold normalizeQuery
    rw [extractLoop_none_of_all hall]

/-! ## Helper lemmas: the filtering/ranking pipeline -/

theorem processHit_some_eq {msgLower : List Char} {msgWords : Finset (List Char)}
    {h : RawHit} {ch : ClassifiedHit}
    (hp : processHit msgLower msgWords h = some ch) :
    ch = ⟨snippetOf h, getScore h, h.title.getD (String.toList "Untitled"),
      isFactualOf h, hasProperNounOf h⟩ := by
  unfold processHit at hp
  split_ifs at hp
  exact (Option.some.inj hp).symm

theorem mem_filteredHits {message : List Char} {hits : List RawHit}
    {ch : ClassifiedHit} (hc : ch ∈ filteredHits message hits) :
    ∃ h0 ∈ hits,
      processHit (msgLowerOf message) (wordSet (msgLowerOf message)) h0 = some ch := by
  unfold filteredHits at hc
  exact List.mem_filterMap.mp hc

theorem getScore_not_strv {h : RawHit} (hn : isNumScore h.score = true) :
    ∀ s, getScore h ≠ PyScore.strv s := by
  intro s
  unfold getScore
  cases hsc : h.score with
  | none => simp
  | some v =>
    cases v with
    | num q => simp
    | strv t =>
      rw [hsc] at hn
      exact absurd hn (by simp [isNumScore])

theorem decorate_ok_exists : ∀ {l : List ClassifiedHit},
    (∀ x ∈ l, ∀ s, x.score ≠ PyScore.strv s) →
    ∃ dl, decorate l = Except.ok dl := by
  intro l
  induction l with
  | nil => intro _; exact ⟨[], rfl⟩
  | cons h t ih =>
    intro hall
    obtain ⟨rest, hrest⟩ := ih (fun x hx => hall x (List.mem_cons_of_mem h hx))
    have hk : ∃ k, hitKey h = Except.ok k := by
      unfold hitKey
      cases hsc : h.score with
      | num q => exact ⟨_, rfl⟩
      | strv s => exact absurd hsc (hall h (List.mem_cons_self h t) s)
    obtain ⟨k, hk⟩ := hk
    refine ⟨(k, h) :: rest, ?_⟩
    unfold decorate
    rw [hk, hrest]

theorem decorate_props : ∀ {l : List ClassifiedHit}
    {dl : List ((Bool × ℚ) × ClassifiedHit)}, decorate l = Except.ok dl →
    dl.map Prod.snd = l ∧
    ∀ p ∈ dl, p.2.score = PyScore.num (scoreQ p.2) ∧
      p.1 = (!p.2.is_factual, -(scoreQ p.2)) := by
  intro l
  induction l with
  | nil =>
    intro dl hd
    have : dl = [] := (Except.ok.inj hd).symm
    subst this
    exact ⟨rfl, by intro p hp; exact absurd hp (List.not_mem_nil p)⟩
  | cons h t ih =>
    intro dl hd
    unfold decorate at hd
    cases hk : hitKey h with
    | error e => rw [hk] at hd; exact absurd hd (by simp)
    | ok k =>
      rw [hk] at hd
      cases hrest : decorate t with
      | error e => rw [hrest] at hd; exact absurd hd (by simp)
      | ok rest =>
        rw [hrest] at hd
        have hdl : dl = (k, h) :: rest := (Except.ok.inj hd).symm
        subst hdl
        obtain ⟨ihmap, ihprops⟩ := ih hrest
        constructor
        · rw [List.map_cons, ihmap]
        · intro p hp
          rcases List.mem_cons.mp hp with rfl | hp2
          · unfold hitKey at hk
            cases hsc : h.score with
            | num q =>
              rw [hsc] at hk
              have hkk : k = (!h.is_factual, -q) := (Except.ok.inj hk).symm
              have hq : scoreQ h = q := by unfold scoreQ; rw [hsc]
              have e1 : PyScore.num q = PyScore.num (scoreQ h) := by rw [hq]
              have e2 : k = (!h.is_factual, -(scoreQ h)) := by rw [hq]; exact hkk
              exact ⟨e1, e2⟩
            | strv s =>
              rw [hsc] at hk
              exact absurd hk (by simp)
          · exact ihprops p hp2

theorem extractLoop_none_of_short {m : List Char} : ∀ {ps : List QPattern},
    (∀ p ∈ ps, shortMatch m p = true) → extractLoop m ps = none := by
  intro ps
  induction ps with
  | nil => intro _; rfl
  | cons p rest ih =>
    intro hall
    have hp := hall p (List.mem_cons_self p rest)
    unfold extractLoop
    cases hs : searchPat p m with
    | none => exact ih (fun q hq => hall q (List.mem_cons_of_mem p hq))
    | some g =>
      unfold shortMatch at hp
      rw [hs] at hp
      have hlen : g.length ≤ 2 := of_decide_eq_true hp
      show (if 2 < g.length then some g else extractLoop m rest) = none
      rw [if_neg (by omega : ¬ 2 < g.length)]
      exact ih (fun q hq => hall q (List.mem_cons_of_mem p hq))

/-- C3 (corrected).  Trailing-punctuation duplicate drop, in the direction
the code implements: if the cleaned snippet's first line with every `?` and
`!` removed and then trimmed equals the lower-cased trimmed utterance, the
hit is dropped; the flipped example — utterance `"What is my name"`, hit
text `"What is my name?"` — is dropped. -/
theorem trailing_punct_amended :
    (∀ (message : List Char) (h : RawHit),
      pyStrip (stripQB (firstLineOf h)) = msgLowerOf message →
      processHit (msgLowerOf message) (wordSet (msgLowerOf message)) h = none) ∧
    filterRank (String.toList "What is my name")
        [⟨none, some (String.toList "What is my name?"), none, none, none⟩] =
      Except.ok [] := by
  constructor
  · intro message h hq
    unfold processHit
    split_ifs with h1 h2 h3 h4
    · rfl
    · rfl
    · rfl
    · rfl
    · exact absurd (Or.inr hq) h2
  · rfl

/-- Witness for C3's amended statement at its example. -/
theorem trailing_punct_amended_witness :
    processHit (msgLowerOf (String.toList "What is my name"))
        (wordSet (msgLowerOf (String.toList "What is my name")))
        ⟨none, some (String.toList "What is my name?"), none, none, none⟩ = none :=
  trailing_punct_amended.1 _ _ (by decide)

/-- C4 (corrected).  A template match with a too-short noun does not stop
the loop: the original utterance is returned only when every template's
leftmost match (if any) captures a noun of at most two characters; in
`"what is my ox who is my doctor"` the first matching template captures
`"ox"` and the later `who` template still wins with `"doctor"`. -/
theorem first_match_amended :
    (∀ message : List Char,
      question_patterns.all (shortMatch (msgLowerOf message)) = true →
      normalizeQuery message = message) ∧
    normalizeQuery (String.toList "what is my ox who is my doctor") =
      String.toList "doctor" := by
  constructor
  · intro message hall
    unfold normalizeQuery
    rw [extractLoop_none_of_short (List.all_eq_true.mp hall)]
  · decide

/-- Witness for C4's amended statement: every template's capture on
`"what is my ox"` is too short, so the utterance is kept. -/
theorem first_match_amended_witness :
    normalizeQuery (String.toList "what is my ox") = String.toList "what is my ox" :=
  first_match_amended.1 _ (by decide)

/-- C8 (corrected).  Total, defaulting ranker — as far as the code goes: the
ranker returns a result (never errors) whenever every present score is
numeric; a missing score is processed exactly like the numeric score `0`;
text is resolved snippet-then-text-then-preview, first non-empty wins; a hit
with no usable text is dropped.  (A present non-numeric score, however,
errors — see the counterexample.) -/
theorem ranker_total_amended :
    (∀ (message : List Char) (hits : List RawHit),
      hits.all (fun h => isNumScore h.score) = true →
      ∃ out, filterRank message hits = Except.ok out) ∧
    (∀ (msgLower : List Char) (msgWords : Finset (List Char)) (h : RawHit),
      h.score = none →
      processHit msgLower msgWords h =
        processHit msgLower msgWords { h with score := some (PyScore.num 0) }) ∧
    (∀ (h : RawHit) (s : List Char), h.snippet = some s → s ≠ [] → pickText h = s) ∧
    (∀ (h : RawHit) (t : List Char), (h.snippet = none ∨ h.snippet = some []) →
      h.text = some t → t ≠ [] → pickText h = t) ∧
    (∀ h : RawHit, (h.snippet = none ∨ h.snippet = some []) →
      (h.text = none ∨ h.text = some []) → pickText h = h.preview.getD []) ∧
    (∀ (msgLower : List Char) (msgWords : Finset (List Char)) (h : RawHit),
      pickText h = [] → processHit msgLower msgWords h = none) := by
  refine ⟨?_, ?_, ?_, ?_, ?_, ?_⟩
  · intro message hits hall
    have hscores : ∀ x ∈ filteredHits message hits, ∀ s, x.score ≠ PyScore.strv s := by
      intro x hx s
      obtain ⟨h0, hh0, hp0⟩ := mem_filteredHits hx
      have hx0 : x = ⟨snippetOf h0, getScore h0,
          h0.title.getD (String.toList "Untitled"),
          isFactualOf h0, hasProperNounOf h0⟩ := processHit_some_eq hp0
      have hn : isNumScore h0.score = true := List.all_eq_true.mp hall h0 hh0
      rw [hx0]
      exact getScore_not_strv hn s
    obtain ⟨dl, hdl⟩ := decorate_ok_exists hscores
    refine ⟨((sortKeyed dl).map Prod.snd).take 3, ?_⟩
    unfold filterRank
    rw [hdl]
  · intro msgLower msgWords h hs
    cases h with
    | mk sn tx pv sc ti =>
      have : sc = none := hs
      subst this
      rfl
  · intro h s hs hne
    unfold pickText
    rw [hs]
    have he : s.isEmpty = false := by
      cases s with
      | nil => exact absurd rfl hne
      | cons a t => rfl
    simp [he]
  · intro h t hsn ht hne
    have hsn2 : h.snippet.getD [] = [] := by
      rcases hsn with hsn | hsn <;> rw [hsn] <;> rfl
    unfold pickText
    rw [hsn2, ht]
    have he : t.isEmpty = false := by
      cases t with
      | nil => exact absurd rfl hne
      | cons a u => rfl
    simp [he]
  · intro h hsn htx
    have hsn2 : h.snippet.getD [] = [] := by
      rcases hsn with hsn | hsn <;> rw [hsn] <;> rfl
    have htx2 : h.text.getD [] = [] := by
      rcases htx with htx | htx <;> rw [htx] <;> rfl
    unfold pickText
    rw [hsn2, htx2]
    rfl
  · intro msgLower msgWords h hp
    unfold processHit
    have he : (snippetOf h).isEmpty = true := by
      unfold snippetOf
      rw [hp]
      rfl
    rw [if_pos he]

/-- Witness for C8's amended statement: a numeric-scored and a scoreless hit
rank without error; the scoreless hit behaves like score `0`; the fallback
chain and the empty-text drop at concrete hits. -/
theorem ranker_total_amended_witness :
    (∃ out, filterRank (String.toList "hello")
        [⟨some (String.toList "Paris is nice"), none, none, some (PyScore.num 2), none⟩,
         ⟨none, some (String.toList "Rome was sunny"), none, none, none⟩] =
      Except.ok out) ∧
    processHit [] ∅ ⟨some (String.toList "abc"), none, none, none, none⟩ =
      processHit [] ∅ ⟨some (String.toList "abc"), none, none,
        some (PyScore.num 0), none⟩ ∧
    pickText ⟨some (String.toList "abc"), some (String.toList "xyz"), none, none, none⟩ =
      String.toList "abc" ∧
    pickText ⟨none, some (String.toList "xyz"), none, none, none⟩ =
      String.toList "xyz" ∧
    pickText ⟨some [], none, some (String.toList "pqr"), none, none⟩ =
      String.toList "pqr" ∧
    processHit [] ∅ ⟨none, none, none, none, none⟩ = none :=
  ⟨ranker_total_amended.1 _ _ (by decide),
   ranker_total_amended.2.1 _ _ _ (by decide),
   ranker_total_amended.2.2.1 _ _ (by decide) (by decide),
   ranker_total_amended.2.2.2.1 _ _ (Or.inl (by decide)) (by decide) (by decide),
   ranker_total_amended.2.2.2.2.1 _ (Or.inr (by decide)) (Or.inl (by decide)),
   ranker_total_amended.2.2.2.2.2 _ _ _ (by decide)⟩

/-! ## Helper lemmas: the stable sort -/

theorem keyLe_refl (a : Bool × ℚ) : keyLe a a = true := by
  unfold keyLe
  simp

theorem keyLe_total {a b : Bool × ℚ} (h : keyLe a b = false) : keyLe b a = true := by
  rcases a with ⟨a1, a2⟩
  rcases b with ⟨b1, b2⟩
  unfold keyLe at *
  cases a1 <;> cases b1 <;> simp_all <;> exact le_of_lt h

theorem keyLe_trans {a b c : Bool × ℚ} (hab : keyLe a b = true)
    (hbc : keyLe b c = true) : keyLe a c = true := by
  rcases a with ⟨a1, a2⟩
  rcases b with ⟨b1, b2⟩
  rcases c with ⟨c1, c2⟩
  unfold keyLe at *
  cases a1 <;> cases b1 <;> cases c1 <;> simp_all
  all_goals exact le_trans hab hbc

theorem mem_insSorted {x y : (Bool × ℚ) × ClassifiedHit} :
    ∀ {l : List ((Bool × ℚ) × ClassifiedHit)},
      y ∈ insSorted x l ↔ y = x ∨ y ∈ l := by
  intro l
  induction l with
  | nil => simp [insSorted]
  | cons z t ih =>
    unfold insSorted
    by_cases h : keyLe x.1 z.1 = true
    · rw [if_pos h]
      simp only [List.mem_cons]
    · rw [if_neg h]
      simp only [List.mem_cons, ih]
      tauto

theorem mem_sortKeyed {y : (Bool × ℚ) × ClassifiedHit} :
    ∀ {l : List ((Bool × ℚ) × ClassifiedHit)}, y ∈ sortKeyed l ↔ y ∈ l := by
  intro l
  induction l with
  | nil => simp [sortKeyed]
  | cons z t ih =>
    unfold sortKeyed
    rw [mem_insSorted, List.mem_cons, ih]

theorem insSorted_pairwise {x : (Bool × ℚ) × ClassifiedHit}
    {l : List ((Bool × ℚ) × ClassifiedHit)}
    (hl : l.Pairwise (fun a b => keyLe a.1 b.1 = true)) :
    (insSorted x l).Pairwise (fun a b => keyLe a.1 b.1 = true) := by
  induction l with
  | nil => simp [insSorted]
  | cons z t ih =>
    rcases List.pairwise_cons.mp hl with ⟨hz, ht⟩
    unfold insSorted
    by_cases h : keyLe x.1 z.1 = true
    · rw [if_pos h]
      refine List.pairwise_cons.mpr ⟨?_, hl⟩
      intro y hy
      rcases List.mem_cons.mp hy with rfl | hy2
      · exact h
      · exact keyLe_trans h (hz y hy2)
    · rw [if_neg h]
      refine List.pairwise_cons.mpr ⟨?_, ih ht⟩
      intro y hy
      rcases mem_insSorted.mp hy with rfl | hy2
      · have hf : keyLe y.1 z.1 = false := by
          cases hx : keyLe y.1 z.1 with
          | false => rfl
          | true => exact absurd hx h
        exact keyLe_total hf
      · exact hz y hy2

theorem sortKeyed_pairwise : ∀ (l : List ((Bool × ℚ) × ClassifiedHit)),
    (sortKeyed l).Pairwise (fun a b => keyLe a.1 b.1 = true)
  | [] => List.Pairwise.nil
  | x :: t => by
    unfold sortKeyed
    exact insSorted_pairwise (sortKeyed_pairwise t)

theorem length_insSorted (x : (Bool × ℚ) × ClassifiedHit) :
    ∀ (l : List ((Bool × ℚ) × ClassifiedHit)),
      (insSorted x l).length = l.length + 1
  | [] => rfl
  | z :: t => by
    unfold insSorted
    by_cases h : keyLe x.1 z.1 = true
    · rw [if_pos h]
      simp
    · rw [if_neg h]
      simp [length_insSorted x t]

theorem length_sortKeyed : ∀ (l : List ((Bool × ℚ) × ClassifiedHit)),
    (sortKeyed l).length = l.length
  | [] => rfl
  | x :: t => by
    unfold sortKeyed
    rw [length_insSorted, length_sortKeyed t]
    simp

theorem insSorted_filter_key (x : (Bool × ℚ) × ClassifiedHit) (k : Bool × ℚ) :
    ∀ (l : List ((Bool × ℚ) × ClassifiedHit)),
      (insSorted x l).filter (fun y => decide (y.1 = k)) =
        if x.1 = k then x :: l.filter (fun y => decide (y.1 = k))
        else l.filter (fun y => decide (y.1 = k))
  | [] => by
    by_cases hx : x.1 = k <;> simp [insSorted, List.filter, hx]
  | z :: t => by
    unfold insSorted
    by_cases h : keyLe x.1 z.1 = true
    · rw [if_pos h]
      by_cases hx : x.1 = k <;> by_cases hz : z.1 = k <;>
        simp [List.filter_cons, hx, hz]
    · rw [if_neg h]
      rw [List.filter_cons]
      by_cases hz : z.1 = k
      · by_cases hx : x.1 = k
        · exfalso
          apply h
          have hxz : x.1 = z.1 := by rw [hx, hz]
          rw [hxz]
          exact keyLe_refl z.1
        · simp [List.filter_cons, hz, hx, insSorted_filter_key x k t]
      · by_cases hx : x.1 = k <;>
          simp [hx, hz, List.filter_cons, insSorted_filter_key x k t]

theorem sortKeyed_filter_key (k : Bool × ℚ) :
    ∀ (l : List ((Bool × ℚ) × ClassifiedHit)),
      (sortKeyed l).filter (fun y => decide (y.1 = k)) =
        l.filter (fun y => decide (y.1 = k))
  | [] => rfl
  | x :: t => by
    unfold sortKeyed
    rw [insSorted_filter_key, List.filter_cons]
    by_cases hx : x.1 = k <;>
      simp [hx, sortKeyed_filter_key k t]

theorem filter_map_snd (P : ClassifiedHit → Bool) :
    ∀ (L : List ((Bool × ℚ) × ClassifiedHit)),
      (L.map Prod.snd).filter P = (L.filter (fun p => P p.2)).map Prod.snd
  | [] => rfl
  | x :: t => by
    rw [List.map_cons, List.filter_cons, List.filter_cons]
    by_cases h : P x.2 = true <;> simp [h, filter_map_snd P t]

theorem keyLe_imp_rel {a b : (Bool × ℚ) × ClassifiedHit}
    (ha : a.1 = (!a.2.is_factual, -(scoreQ a.2)))
    (hb : b.1 = (!b.2.is_factual, -(scoreQ b.2)))
    (hk : keyLe a.1 b.1 = true) :
    (a.2.is_factual = false → b.2.is_factual = false) ∧
    (a.2.is_factual = b.2.is_factual → scoreQ b.2 ≤ scoreQ a.2) := by
  rw [ha, hb] at hk
  unfold keyLe at hk
  constructor
  · intro haf
    rw [haf] at hk
    by_contra hbf
    have hbt : b.2.is_factual = true := by
      cases hb2 : b.2.is_factual with
      | false => exact absurd hb2 hbf
      | true => rfl
    rw [hbt] at hk
    simp at hk
  · intro hfe
    rw [hfe] at hk
    simp at hk
    linarith

/-- C2 (confirmed).  Ranking and limit: when the ranker succeeds, its output
has length exactly `min 3 n` for `n` surviving hits, is ordered with every
`is_factual` hit before every non-factual hit and by descending score within
each group, and is the 3-element prefix of a full ordering that is stable:
restricted to any fixed `(is_factual, score)` class, the full ordering lists
the surviving hits in their original input order. -/
theorem ranking_invariant (message : List Char) (hits : List RawHit)
    (out : List ClassifiedHit) (hok : filterRank message hits = Except.ok out) :
    out.length = min 3 (filteredHits message hits).length ∧
    out.Pairwise (fun a b =>
      (a.is_factual = false → b.is_factual = false) ∧
      (a.is_factual = b.is_factual → scoreQ b ≤ scoreQ a)) ∧
    ∃ full : List ClassifiedHit,
      out = full.take 3 ∧
      full.Pairwise (fun a b =>
        (a.is_factual = false → b.is_factual = false) ∧
        (a.is_factual = b.is_factual → scoreQ b ≤ scoreQ a)) ∧
      ∀ (b : Bool) (q : ℚ),
        full.filter (fun x => x.is_factual == b && x.score == PyScore.num q) =
          (filteredHits message hits).filter
            (fun x => x.is_factual == b && x.score == PyScore.num q) := by
  unfold filterRank at hok
  cases hdec : decorate (filteredHits message hits) with
  | error e =>
    rw [hdec] at hok
    exact absurd hok (by simp)
  | ok dl =>
    rw [hdec] at hok
    have hout : out = ((sortKeyed dl).map Prod.snd).take 3 := (Except.ok.inj hok).symm
    obtain ⟨hmap, hprops⟩ := decorate_props hdec
    have hsorted : (sortKeyed dl).Pairwise (fun a b => keyLe a.1 b.1 = true) :=
      sortKeyed_pairwise dl
    have hlink : ∀ p ∈ sortKeyed dl,
        p.2.score = PyScore.num (scoreQ p.2) ∧
        p.1 = (!p.2.is_factual, -(scoreQ p.2)) :=
      fun p hp => hprops p (mem_sortKeyed.mp hp)
    have hRdl : (sortKeyed dl).Pairwise (fun a b =>
        (a.2.is_factual = false → b.2.is_factual = false) ∧
        (a.2.is_factual = b.2.is_factual → scoreQ b.2 ≤ scoreQ a.2)) := by
      refine hsorted.imp_of_mem ?_
      intro a b hma hmb hk
      exact keyLe_imp_rel (hlink a hma).2 (hlink b hmb).2 hk
    have hRfull : ((sortKeyed dl).map Prod.snd).Pairwise (fun a b =>
        (a.is_factual = false → b.is_factual = false) ∧
        (a.is_factual = b.is_factual → scoreQ b ≤ scoreQ a)) :=
      List.pairwise_map.mpr hRdl
    have hlen_full : ((sortKeyed dl).map Prod.snd).length =
        (filteredHits message hits).length := by
      rw [List.length_map, length_sortKeyed, ← hmap, List.length_map]
    refine ⟨?_, ?_, (sortKeyed dl).map Prod.snd, hout, hRfull, ?_⟩
    · rw [hout, List.length_take, hlen_full]
    · rw [hout]
      exact hRfull.sublist (List.take_sublist 3 _)
    · intro b q
      have hswitch : ∀ (L : List ((Bool × ℚ) × ClassifiedHit)),
          (∀ p ∈ L, p.2.score = PyScore.num (scoreQ p.2) ∧
            p.1 = (!p.2.is_factual, -(scoreQ p.2))) →
          L.filter (fun p => p.2.is_factual == b && p.2.score == PyScore.num q) =
            L.filter (fun p => decide (p.1 = (!b, -q))) := by
        intro L hL
        apply List.filter_congr
        intro p hp
        obtain ⟨hsc, hkey⟩ := hL p hp
        rw [hkey, hsc]
        by_cases hf : p.2.is_factual = b <;> by_cases hq : scoreQ p.2 = q <;>
          simp [hf, hq, Prod.ext_iff]
      have hlinkdl : ∀ p ∈ dl,
          p.2.score = PyScore.num (scoreQ p.2) ∧
          p.1 = (!p.2.is_factual, -(scoreQ p.2)) := hprops
      calc ((sortKeyed dl).map Prod.snd).filter
            (fun x => x.is_factual == b && x.score == PyScore.num q)
          = ((sortKeyed dl).filter
              (fun p => p.2.is_factual == b && p.2.score == PyScore.num q)).map
              Prod.snd := filter_map_snd _ _
        _ = ((sortKeyed dl).filter (fun p => decide (p.1 = (!b, -q)))).map Prod.snd := by
            rw [hswitch _ hlink]
        _ = (dl.filter (fun p => decide (p.1 = (!b, -q)))).map Prod.snd := by
            rw [sortKeyed_filter_key]
        _ = (dl.filter
              (fun p => p.2.is_factual == b && p.2.score == PyScore.num q)).map
              Prod.snd := by
            rw [hswitch _ hlinkdl]
        _ = (dl.map Prod.snd).filter
              (fun x => x.is_factual == b && x.score == PyScore.num q) :=
            (filter_map_snd
              (fun x => x.is_factual == b && x.score == PyScore.num q) dl).symm
        _ = (filteredHits message hits).filter
              (fun x => x.is_factual == b && x.score == PyScore.num q) := by
            rw [hmap]

/-- Witness for C2: four surviving hits (two factual, two tied non-factual)
rank factual-first, by descending score, truncated to three. -/
theorem ranking_invariant_witness :
    ([⟨String.toList "Gamma was there", PyScore.num 2, String.toList "Untitled", true, true⟩,
      ⟨String.toList "Alpha is here", PyScore.num 1, String.toList "Untitled", true, true⟩,
      ⟨String.toList "Beta here now", PyScore.num 5, String.toList "Untitled", false, true⟩] :
        List ClassifiedHit).length =
      min 3 (filteredHits (String.toList "zzz")
        [⟨some (String.toList "Beta here now"), none, none, some (PyScore.num 5), none⟩,
         ⟨some (String.toList "Alpha is here"), none, none, some (PyScore.num 1), none⟩,
         ⟨some (String.toList "Gamma was there"), none, none, some (PyScore.num 2), none⟩,
         ⟨some (String.toList "Delta here too"), none, none, some (PyScore.num 5), none⟩]).length ∧
    ([⟨String.toList "Gamma was there", PyScore.num 2, String.toList "Untitled", true, true⟩,
      ⟨String.toList "Alpha is here", PyScore.num 1, String.toList "Untitled", true, true⟩,
      ⟨String.toList "Beta here now", PyScore.num 5, String.toList "Untitled", false, true⟩] :
        List ClassifiedHit).Pairwise (fun a b =>
      (a.is_factual = false → b.is_factual = false) ∧
      (a.is_factual = b.is_factual → scoreQ b ≤ scoreQ a)) ∧
    ∃ full : List ClassifiedHit,
      ([⟨String.toList "Gamma was there", PyScore.num 2, String.toList "Untitled", true, true⟩,
        ⟨String.toList "Alpha is here", PyScore.num 1, String.toList "Untitled", true, true⟩,
        ⟨String.toList "Beta here now", PyScore.num 5, String.toList "Untitled", false, true⟩] :
          List ClassifiedHit) = full.take 3 ∧
      full.Pairwise (fun a b =>
        (a.is_factual = false → b.is_factual = false) ∧
        (a.is_factual = b.is_factual → scoreQ b ≤ scoreQ a)) ∧
      ∀ (b : Bool) (q : ℚ),
        full.filter (fun x => x.is_factual == b && x.score == PyScore.num q) =
          (filteredHits (String.toList "zzz")
            [⟨some (String.toList "Beta here now"), none, none, some (PyScore.num 5), none⟩,
             ⟨some (String.toList "Alpha is here"), none, none, some (PyScore.num 1), none⟩,
             ⟨some (String.toList "Gamma was there"), none, none, some (PyScore.num 2), none⟩,
             ⟨some (String.toList "Delta here too"), none, none,
               some (PyScore.num 5), none⟩]).filter
            (fun x => x.is_factual == b && x.score == PyScore.num q) :=
  ranking_invariant (String.toList "zzz")
    [⟨some (String.toList "Beta here now"), none, none, some (PyScore.num 5), none⟩,
     ⟨some (String.toList "Alpha is here"), none, none, some (PyScore.num 1), none⟩,
     ⟨some (String.toList "Gamma was there"), none, none, some (PyScore.num 2), none⟩,
     ⟨some (String.toList "Delta here too"), none, none, some (PyScore.num 5), none⟩]
    [⟨String.toList "Gamma was there", PyScore.num 2, String.toList "Untitled", true, true⟩,
     ⟨String.toList "Alpha is here", PyScore.num 1, String.toList "Untitled", true, true⟩,
     ⟨String.toList "Beta here now", PyScore.num 5, String.toList "Untitled", false, true⟩]
    (by rfl)

/-! ## Helper lemmas: building a successful template match -/

theorem matchLit_space (X : List Char) : matchLit [' '] (' ' :: X) = some X := rfl

theorem matchAt_build (p : QPattern) (c d N : List Char)
    (hcop : ∀ M, matchAlts p.copulas (c ++ ' ' :: M) = some (' ' :: M))
    (hdet : ∀ M, matchAlts determiners (d ++ ' ' :: M) = some (' ' :: M))
    (hN : ∀ ch ∈ N, isWordChar ch = true) (hne : N ≠ []) :
    matchAt p ((p.wh ++ [' ']) ++ (c ++ ' ' :: (d ++ ' ' :: N))) = some N := by
  unfold matchAt
  simp only [matchLit_self, hcop, matchLit_space, hdet, takeWordRun_all hN]
  have hie : N.isEmpty = false := by
    cases N with
    | nil => exact absurd rfl hne
    | cons a t => rfl
  rw [hie]
  simp

theorem searchPat_build (p : QPattern) (c d N : List Char)
    (hcop : ∀ M, matchAlts p.copulas (c ++ ' ' :: M) = some (' ' :: M))
    (hdet : ∀ M, matchAlts determiners (d ++ ' ' :: M) = some (' ' :: M))
    (hN : ∀ ch ∈ N, isWordChar ch = true) (hne : N ≠ []) :
    searchPat p ((p.wh ++ [' ']) ++ (c ++ ' ' :: (d ++ ' ' :: N))) = some N := by
  have hm := matchAt_build p c d N hcop hdet hN hne
  cases hwh : p.wh with
  | nil =>
    rw [hwh] at hm
    simp only [List.nil_append, List.singleton_append] at hm ⊢
    rw [searchPat_cons, hm]
  | cons w0 ws =>
    rw [hwh] at hm
    simp only [List.cons_append] at hm ⊢
    rw [searchPat_cons, hm]

theorem extractLoop_append (m : List Char) (ps₁ : List QPattern) (p : QPattern)
    (ps₂ : List QPattern) (g : List Char)
    (hearly : ∀ q ∈ ps₁, searchPat q m = none)
    (hp : searchPat p m = some g) (hlen : 2 < g.length) :
    extractLoop m (ps₁ ++ p :: ps₂) = some g := by
  induction ps₁ with
  | nil =>
    simp only [List.nil_append]
    unfold extractLoop
    rw [hp]
    show (if 2 < g.length then some g else extractLoop m ps₂) = some g
    rw [if_pos hlen]
  | cons q qs ih =>
    simp only [List.cons_append]
    unfold extractLoop
    rw [hearly q (List.mem_cons_self q qs)]
    show extractLoop m (qs ++ p :: ps₂) = some g
    exact ih (fun r hr => hearly r (List.mem_cons_of_mem q hr))

theorem pyStrip_append_id {x : Char} (hx : isSpaceChar x = false) {mid N : List Char}
    (hNne : N ≠ []) (hNs : ∀ ch ∈ N, isSpaceChar ch = false) :
    pyStrip (x :: mid ++ N) = x :: mid ++ N := by
  have hne : x :: mid ++ N ≠ [] := by simp
  apply pyStrip_eq_self hne
  · exact hx
  · have h2 : (x :: mid ++ N).getLast hne = N.getLast hNne :=
      List.getLast_append' (x :: mid) N hNne
    rw [h2]
    exact hNs _ (List.getLast_mem hNne)

theorem pyLower_append (a b : List Char) : pyLower (a ++ b) = pyLower a ++ pyLower b :=
  List.map_append pyToLower a b

theorem copula_case (w : List Char) (cops : List (List Char))
    (ps₁ ps₂ : List QPattern) (c d N : List Char)
    (hsplit : question_patterns = ps₁ ++ (⟨w, cops⟩ : QPattern) :: ps₂)
    (hearly : ∀ q ∈ ps₁, containsSub (q.wh ++ [' '])
        (w ++ [' '] ++ c ++ [' '] ++ d ++ [' ']) = false)
    (hcop : ∀ M, matchAlts cops (c ++ ' ' :: M) = some (' ' :: M))
    (hdet : ∀ M, matchAlts determiners (d ++ ' ' :: M) = some (' ' :: M))
    (hwh : ∃ w0 ws, w = w0 :: ws ∧ isSpaceChar w0 = false)
    (hfixpre : pyLower (w ++ [' '] ++ c ++ [' '] ++ d ++ [' ']) =
        w ++ [' '] ++ c ++ [' '] ++ d ++ [' '])
    (hN : ∀ ch ∈ N, isWordChar ch = true) (hlow : pyLower N = N)
    (hlen : 2 < N.length) :
    normalizeQuery (w ++ [' '] ++ c ++ [' '] ++ d ++ [' '] ++ N) = N := by
  obtain ⟨w0, ws, hw, hw0⟩ := hwh
  have hNne : N ≠ [] := by
    intro h
    rw [h] at hlen
    simp at hlen
  have hassoc : w ++ [' '] ++ c ++ [' '] ++ d ++ [' '] ++ N =
      (w ++ [' ']) ++ (c ++ ' ' :: (d ++ ' ' :: N)) := by
    simp [List.append_assoc]
  have hsp : searchPat ⟨w, cops⟩ (w ++ [' '] ++ c ++ [' '] ++ d ++ [' '] ++ N) =
      some N := by
    rw [hassoc]
    exact searchPat_build ⟨w, cops⟩ c d N hcop hdet hN hNne
  have hearly2 : ∀ q ∈ ps₁,
      searchPat q (w ++ [' '] ++ c ++ [' '] ++ d ++ [' '] ++ N) = none := by
    intro q hq
    apply searchPat_none_of_not_contains
    have e1 : w ++ [' '] ++ c ++ [' '] ++ d ++ [' '] ++ N =
        (w ++ [' '] ++ c ++ [' '] ++ d ++ [' ']) ++ N := by
      simp [List.append_assoc]
    rw [e1, containsSub_append_words (by decide) hN q.wh
      (w ++ [' '] ++ c ++ [' '] ++ d ++ [' '])]
    exact hearly q hq
  have hlowmsg : pyLower (w ++ [' '] ++ c ++ [' '] ++ d ++ [' '] ++ N) =
      w ++ [' '] ++ c ++ [' '] ++ d ++ [' '] ++ N := by
    have e1 : w ++ [' '] ++ c ++ [' '] ++ d ++ [' '] ++ N =
        (w ++ [' '] ++ c ++ [' '] ++ d ++ [' ']) ++ N := by
      simp [List.append_assoc]
    rw [e1, pyLower_append, hfixpre, hlow]
  have hcons : w ++ [' '] ++ c ++ [' '] ++ d ++ [' '] ++ N =
      w0 :: (ws ++ [' '] ++ c ++ [' '] ++ d ++ [' ']) ++ N := by
    rw [hw]
    simp [List.append_assoc]
  have hfixmsg : msgLowerOf (w ++ [' '] ++ c ++ [' '] ++ d ++ [' '] ++ N) =
      w ++ [' '] ++ c ++ [' '] ++ d ++ [' '] ++ N := by
    unfold msgLowerOf
    rw [hlowmsg, hcons]
    exact pyStrip_append_id hw0 hNne (fun ch hch => word_not_space (hN ch hch))
  have hextract : extractLoop (w ++ [' '] ++ c ++ [' '] ++ d ++ [' '] ++ N)
      question_patterns = some N := by
    rw [hsplit]
    exact extractLoop_append _ ps₁ _ ps₂ N hearly2 hsp hlen
  unfold normalizeQuery
  rw [hfixmsg, hextract]

/-- C5 (corrected).  Copula coverage as the template list actually has it:
`was`/`were` are accepted only after `when`/`how`; for every accepted
wh-word/copula pair, every determiner, and every noun token of word
characters with no upper-case letter and more than two characters, the
utterance `"w c d N"` normalizes to `N`. -/
theorem copula_amended (w c d N : List Char)
    (hwc : (w, c) ∈ validCombos) (hd : d ∈ determiners)
    (hN : ∀ ch ∈ N, isWordChar ch = true) (hlow : pyLower N = N)
    (hlen : 2 < N.length) :
    normalizeQuery (w ++ [' '] ++ c ++ [' '] ++ d ++ [' '] ++ N) = N := by
  simp only [validCombos, List.mem_cons, List.not_mem_nil, or_false,
    Prod.mk.injEq] at hwc
  simp only [determiners, List.mem_cons, List.not_mem_nil, or_false] at hd
  rcases hwc with hp | hp | hp | hp | hp | hp | hp |
    hp | hp | hp | hp | hp | hp | hp <;>
  obtain ⟨rfl, rfl⟩ := hp <;>
  rcases hd with rfl | rfl | rfl
  · exact copula_case (String.toList "what") copIsAre
        (question_patterns.take 0) (question_patterns.drop 1) _ _ N rfl (by decide)
        (fun M => rfl) (fun M => rfl) ⟨'w', ['h','a','t'], rfl, by decide⟩
        (by decide) hN hlow hlen
  · exact copula_case (String.toList "what") copIsAre
        (question_patterns.take 0) (question_patterns.drop 1) _ _ N rfl (by decide)
        (fun M => rfl) (fun M => rfl) ⟨'w', ['h','a','t'], rfl, by decide⟩
        (by decide) hN hlow hlen
  · exact copula_case (String.toList "what") copIsAre
        (question_patterns.take 0) (question_patterns.drop 1) _ _ N rfl (by decide)
        (fun M => rfl) (fun M => rfl) ⟨'w', ['h','a','t'], rfl, by decide⟩
        (by decide) hN hlow hlen
  · exact copula_case (String.toList "what") copIsAre
        (question_patterns.take 0) (question_patterns.drop 1) _ _ N rfl (by decide)
        (fun M => rfl) (fun M => rfl) ⟨'w', ['h','a','t'], rfl, by decide⟩
        (by decide) hN hlow hlen
  · exact copula_case (String.toList "what") copIsAre
        (question_patterns.take 0) (question_patterns.drop 1) _ _ N rfl (by decide)
        (fun M => rfl) (fun M => rfl) ⟨'w', ['h','a','t'], rfl, by decide⟩
        (by decide) hN hlow hlen
  · exact copula_case (String.toList "what") copIsAre
        (question_patterns.take 0) (question_patterns.drop 1) _ _ N rfl (by decide)
        (fun M => rfl) (fun M => rfl) ⟨'w', ['h','a','t'], rfl, by decide⟩
        (by decide) hN hlow hlen
  · exact copula_case (String.toList "who") copIsAre
        (question_patterns.take 1) (question_patterns.drop 2) _ _ N rfl (by decide)
        (fun M => rfl) (fun M => rfl) ⟨'w', ['h','o'], rfl, by decide⟩
        (by decide) hN hlow hlen
  · exact copula_case (String.toList "who") copIsAre
        (question_patterns.take 1) (question_patterns.drop 2) _ _ N rfl (by decide)
        (fun M => rfl) (fun M => rfl) ⟨'w', ['h','o'], rfl, by decide⟩
        (by decide) hN hlow hlen
  · exact copula_case (String.toList "who") copIsAre
        (question_patterns.take 1) (question_patterns.drop 2) _ _ N rfl (by decide)
        (fun M => rfl) (fun M => rfl) ⟨'w', ['h','o'], rfl, by decide⟩
        (by decide) hN hlow hlen
  · exact copula_case (String.toList "who") copIsAre
        (question_patterns.take 1) (question_patterns.drop 2) _ _ N rfl (by decide)
        (fun M => rfl) (fun M => rfl) ⟨'w', ['h','o'], rfl, by decide⟩
        (by decide) hN hlow hlen
  · exact copula_case (String.toList "who") copIsAre
        (question_patterns.take 1) (question_patterns.drop 2) _ _ N rfl (by decide)
        (fun M => rfl) (fun M => rfl) ⟨'w', ['h','o'], rfl, by decide⟩
        (by decide) hN hlow hlen
  · exact copula_case (String.toList "who") copIsAre
        (question_patterns.take 1) (question_patterns.drop 2) _ _ N rfl (by decide)
        (fun M => rfl) (fun M => rfl) ⟨'w', ['h','o'], rfl, by decide⟩
        (by decide) hN hlow hlen
  · exact copula_case (String.toList "where") copIsAre
        (question_patterns.take 2) (question_patterns.drop 3) _ _ N rfl (by decide)
        (fun M => rfl) (fun M => rfl) ⟨'w', ['h','e','r','e'], rfl, by decide⟩
        (by decide) hN hlow hlen
  · exact copula_case (String.toList "where") copIsAre
        (question_patterns.take 2) (question_patterns.drop 3) _ _ N rfl (by decide)
        (fun M => rfl) (fun M => rfl) ⟨'w', ['h','e','r','e'], rfl, by decide⟩
        (by decide) hN hlow hlen
  · exact copula_case (String.toList "where") copIsAre
        (question_patterns.take 2) (question_patterns.drop 3) _ _ N rfl (by decide)
        (fun M => rfl) (fun M => rfl) ⟨'w', ['h','e','r','e'], rfl, by decide⟩
        (by decide) hN hlow hlen
  · exact copula_case (String.toList "where") copIsAre
        (question_patterns.take 2) (question_patterns.drop 3) _ _ N rfl (by decide)
        (fun M => rfl) (fun M => rfl) ⟨'w', ['h','e','r','e'], rfl, by decide⟩
        (by decide) hN hlow hlen
  · exact copula_case (String.toList "where") copIsAre
        (question_patterns.take 2) (question_patterns.drop 3) _ _ N rfl (by decide)
        (fun M => rfl) (fun M => rfl) ⟨'w', ['h','e','r','e'], rfl, by decide⟩
        (by decide) hN hlow hlen
  · exact copula_case (String.toList "where") copIsAre
        (question_patterns.take 2) (question_patterns.drop 3) _ _ N rfl (by decide)
        (fun M => rfl) (fun M => rfl) ⟨'w', ['h','e','r','e'], rfl, by decide⟩
        (by decide) hN hlow hlen
  · exact copula_case (String.toList "when") copIsAreWasWere
        (question_patterns.take 3) (question_patterns.drop 4) _ _ N rfl (by decide)
        (fun M => rfl) (fun M => rfl) ⟨'w', ['h','e','n'], rfl, by decide⟩
        (by decide) hN hlow hlen
  · exact copula_case (String.toList "when") copIsAreWasWere
        (question_patterns.take 3) (question_patterns.drop 4) _ _ N rfl (by decide)
        (fun M => rfl) (fun M => rfl) ⟨'w', ['h','e','n'], rfl, by decide⟩
        (by decide) hN hlow hlen
  · exact copula_case (String.toList "when") copIsAreWasWere
        (question_patterns.take 3) (question_patterns.drop 4) _ _ N rfl (by decide)
        (fun M => rfl) (fun M => rfl) ⟨'w', ['h','e','n'], rfl, by decide⟩
        (by decide) hN hlow hlen
  · exact copula_case (String.toList "when") copIsAreWasWere
        (question_patterns.take 3) (question_patterns.drop 4) _ _ N rfl (by decide)
        (fun M => rfl) (fun M => rfl) ⟨'w', ['h','e','n'], rfl, by decide⟩
        (by decide) hN hlow hlen
  · exact copula_case (String.toList "when") copIsAreWasWere
        (question_patterns.take 3) (question_patterns.drop 4) _ _ N rfl (by decide)
        (fun M => rfl) (fun M => rfl) ⟨'w', ['h','e','n'], rfl, by decide⟩
        (by decide) hN hlow hlen
  · exact copula_case (String.toList "when") copIsAreWasWere
        (question_patterns.take 3) (question_patterns.drop 4) _ _ N rfl (by decide)
        (fun M => rfl) (fun M => rfl) ⟨'w', ['h','e','n'], rfl, by decide⟩
        (by decide) hN hlow hlen
  · exact copula_case (String.toList "when") copIsAreWasWere
        (question_patterns.take 3) (question_patterns.drop 4) _ _ N rfl (by decide)
        (fun M => rfl) (fun M => rfl) ⟨'w', ['h','e','n'], rfl, by decide⟩
        (by decide) hN hlow hlen
  · exact copula_case (String.toList "when") copIsAreWasWere
        (question_patterns.take 3) (question_patterns.drop 4) _ _ N rfl (by decide)
        (fun M => rfl) (fun M => rfl) ⟨'w', ['h','e','n'], rfl, by decide⟩
        (by decide) hN hlow hlen
  · exact copula_case (String.toList "when") copIsAreWasWere
        (question_patterns.take 3) (question_patterns.drop 4) _ _ N rfl (by decide)
        (fun M => rfl) (fun M => rfl) ⟨'w', ['h','e','n'], rfl, by decide⟩
        (by decide) hN hlow hlen
  · exact copula_case (String.toList "when") copIsAreWasWere
        (question_patterns.take 3) (question_patterns.drop 4) _ _ N rfl (by decide)
        (fun M => rfl) (fun M => rfl) ⟨'w', ['h','e','n'], rfl, by decide⟩
        (by decide) hN hlow hlen
  · exact copula_case (String.toList "when") copIsAreWasWere
        (question_patterns.take 3) (question_patterns.drop 4) _ _ N rfl (by decide)
        (fun M => rfl) (fun M => rfl) ⟨'w', ['h','e','n'], rfl, by decide⟩
        (by decide) hN hlow hlen
  · exact copula_case (String.toList "when") copIsAreWasWere
        (question_patterns.take 3) (question_patterns.drop 4) _ _ N rfl (by decide)
        (fun M => rfl) (fun M => rfl) ⟨'w', ['h','e','n'], rfl, by decide⟩
        (by decide) hN hlow hlen
  · exact copula_case (String.toList "how") copIsAreWasWere
        (question_patterns.take 4) (question_patterns.drop 5) _ _ N rfl (by decide)
        (fun M => rfl) (fun M => rfl) ⟨'h', ['o','w'], rfl, by decide⟩
        (by decide) hN hlow hlen
  · exact copula_case (String.toList "how") copIsAreWasWere
        (question_patterns.take 4) (question_patterns.drop 5) _ _ N rfl (by decide)
        (fun M => rfl) (fun M => rfl) ⟨'h', ['o','w'], rfl, by decide⟩
        (by decide) hN hlow hlen
  · exact copula_case (String.toList "how") copIsAreWasWere
        (question_patterns.take 4) (question_patterns.drop 5) _ _ N rfl (by decide)
        (fun M => rfl) (fun M => rfl) ⟨'h', ['o','w'], rfl, by decide⟩
        (by decide) hN hlow hlen
  · exact copula_case (String.toList "how") copIsAreWasWere
        (question_patterns.take 4) (question_patterns.drop 5) _ _ N rfl (by decide)
        (fun M => rfl) (fun M => rfl) ⟨'h', ['o','w'], rfl, by decide⟩
        (by decide) hN hlow hlen
  · exact copula_case (String.toList "how") copIsAreWasWere
        (question_patterns.take 4) (question_patterns.drop 5) _ _ N rfl (by decide)
        (fun M => rfl) (fun M => rfl) ⟨'h', ['o','w'], rfl, by decide⟩
        (by decide) hN hlow hlen
  · exact copula_case (String.toList "how") copIsAreWasWere
        (question_patterns.take 4) (question_patterns.drop 5) _ _ N rfl (by decide)
        (fun M => rfl) (fun M => rfl) ⟨'h', ['o','w'], rfl, by decide⟩
        (by decide) hN hlow hlen
  · exact copula_case (String.toList "how") copIsAreWasWere
        (question_patterns.take 4) (question_patterns.drop 5) _ _ N rfl (by decide)
        (fun M => rfl) (fun M => rfl) ⟨'h', ['o','w'], rfl, by decide⟩
        (by decide) hN hlow hlen
  · exact copula_case (String.toList "how") copIsAreWasWere
        (question_patterns.take 4) (question_patterns.drop 5) _ _ N rfl (by decide)
        (fun M => rfl) (fun M => rfl) ⟨'h', ['o','w'], rfl, by decide⟩
        (by decide) hN hlow hlen
  · exact copula_case (String.toList "how") copIsAreWasWere
        (question_patterns.take 4) (question_patterns.drop 5) _ _ N rfl (by decide)
        (fun M => rfl) (fun M => rfl) ⟨'h', ['o','w'], rfl, by decide⟩
        (by decide) hN hlow hlen
  · exact copula_case (String.toList "how") copIsAreWasWere
        (question_patterns.take 4) (question_patterns.drop 5) _ _ N rfl (by decide)
        (fun M => rfl) (fun M => rfl) ⟨'h', ['o','w'], rfl, by decide⟩
        (by decide) hN hlow hlen
  · exact copula_case (String.toList "how") copIsAreWasWere
        (question_patterns.take 4) (question_patterns.drop 5) _ _ N rfl (by decide)
        (fun M => rfl) (fun M => rfl) ⟨'h', ['o','w'], rfl, by decide⟩
        (by decide) hN hlow hlen
  · exact copula_case (String.toList "how") copIsAreWasWere
        (question_patterns.take 4) (question_patterns.drop 5) _ _ N rfl (by decide)
        (fun M => rfl) (fun M => rfl) ⟨'h', ['o','w'], rfl, by decide⟩
        (by decide) hN hlow hlen

/-- Witness for C5's amended statement: `"when were the birthday"`
normalizes to `"birthday"`. -/
theorem copula_amended_witness :
    normalizeQuery (String.toList "when" ++ [' '] ++ String.toList "were" ++ [' '] ++
      String.toList "the" ++ [' '] ++ String.toList "birthday") =
      String.toList "birthday" :=
  copula_amended _ _ _ _ (by decide) (by decide) (by decide) (by decide) (by decide)
